import Mathlib

/-!
# runelite-timelapse: the discovery / sort / stream pipeline of `TimelapseProfile`

A shallow embedding of `src/main.go`.

* `TimelapseProfile` is embedded as a function from an explicit environment
  (`Env`: what the prompt, the directory walk, the file reads and the encoder
  subprocess answer) to the sequence of effects the Go function performs and
  the way it ends.
* The Go standard-library routines the function calls are embedded from their
  Go definitions: `slices.SortFunc` (pattern-defeating quicksort,
  `pdqsortCmpFunc` and its helpers), `filepath.Ext`, `Time.Compare`.
* Slices are lists addressed by index; a slice element exchange is `swap`.
* `int64` arithmetic is `Int` arithmetic wrapped by `wrapInt64`.
-/

set_option autoImplicit false

namespace Timelapse

/-! ## Slices -/

/-- Exchange of two slice elements, `data[i], data[j] = data[j], data[i]`. -/
def swap {α : Type} (data : List α) (i j : Nat) : List α :=
  match data[i]?, data[j]? with
  | some x, some y => (data.set i y).set j x
  | _, _ => data

/-- The test `cmp(data[i], data[j]) < 0` on two slice positions. -/
def lessAt {α : Type} (cmp : α → α → Int) (data : List α) (i j : Nat) : Bool :=
  match data[i]?, data[j]? with
  | some x, some y => decide (cmp x y < 0)
  | _, _ => false

/-! ## `slices.SortFunc`: pattern-defeating quicksort -/

/-- Inner loop of `insertionSortCmpFunc`:
`for j := i; j > a && cmp(data[j], data[j-1]) < 0; j-- { swap j, j-1 }`. -/
def insertionSortInner {α : Type} (cmp : α → α → Int) (a : Nat) : Nat → List α → List α
  | 0, data => data
  | j + 1, data =>
    if a < j + 1 ∧ lessAt cmp data (j + 1) j = true then
      insertionSortInner cmp a j (swap data (j + 1) j)
    else data

/-- Go `insertionSortCmpFunc`: sorts `data[a:b]` by insertion,
`for i := a + 1; i < b; i++ { inner loop }`. -/
def insertionSortCmpFunc {α : Type} (cmp : α → α → Int) (data : List α) (a b : Nat) : List α :=
  (List.range' (a + 1) (b - (a + 1))).foldl (fun d i => insertionSortInner cmp a i d) data

/-- Go `siftDownCmpFunc`: restores the heap property on `data[first+lo : first+hi]`
from `root` downwards. The fuel counts loop iterations; `root` grows at each. -/
def siftDownCmpFunc {α : Type} (cmp : α → α → Int) (hi first : Nat) :
    Nat → List α → Nat → List α
  | 0, data, _ => data
  | n + 1, data, root =>
    if hi ≤ 2 * root + 1 then data
    else
      let child :=
        if 2 * root + 1 + 1 < hi ∧
            lessAt cmp data (first + (2 * root + 1)) (first + (2 * root + 1) + 1) = true
        then 2 * root + 1 + 1 else 2 * root + 1
      if lessAt cmp data (first + root) (first + child) = true then
        siftDownCmpFunc cmp hi first n (swap data (first + root) (first + child)) child
      else data

/-- First loop of `heapSortCmpFunc`,
`for i := (hi - 1) / 2; i >= 0; i-- { siftDown(data, i, hi, first) }`;
`heapBuild k` runs the iterations `i = k - 1, ..., 0`. -/
def heapBuild {α : Type} (cmp : α → α → Int) (hi first : Nat) : Nat → List α → List α
  | 0, data => data
  | k + 1, data => heapBuild cmp hi first k (siftDownCmpFunc cmp hi first hi data k)

/-- Second loop of `heapSortCmpFunc`,
`for i := hi - 1; i >= 0; i-- { swap first, first+i; siftDown(data, lo, i, first) }`;
`heapPop k` runs the iterations `i = k - 1, ..., 0`. -/
def heapPop {α : Type} (cmp : α → α → Int) (first : Nat) : Nat → List α → List α
  | 0, data => data
  | k + 1, data =>
    heapPop cmp first k (siftDownCmpFunc cmp k first k (swap data first (first + k)) 0)

/-- Go `heapSortCmpFunc` on `data[a:b]`. -/
def heapSortCmpFunc {α : Type} (cmp : α → α → Int) (data : List α) (a b : Nat) : List α :=
  heapPop cmp a (b - a) (heapBuild cmp (b - a) a ((b - a - 1) / 2 + 1) data)

/-- The loop `for i <= j && p(i) { i++ }`; returns the final `i`. -/
def scanUp (p : Nat → Bool) (j : Nat) : Nat → Nat → Nat
  | 0, i => i
  | n + 1, i => if i ≤ j ∧ p i = true then scanUp p j n (i + 1) else i

/-- The loop `for i <= j && p(j) { j-- }`; returns the final `j`. -/
def scanDown (p : Nat → Bool) (i : Nat) : Nat → Nat → Nat
  | 0, j => j
  | n + 1, j => if i ≤ j ∧ p j = true then scanDown p i n (j - 1) else j

/-- Main loop of `partitionCmpFunc` (the pivot sits at `data[a]`); returns the
slice and the final `j`. -/
def partitionLoop {α : Type} (cmp : α → α → Int) (a : Nat) :
    Nat → List α → Nat → Nat → List α × Nat
  | 0, data, _, j => (data, j)
  | n + 1, data, i, j =>
    let i1 := scanUp (fun k => lessAt cmp data k a) j (j + 1 - i) i
    let j1 := scanDown (fun k => !lessAt cmp data k a) i1 (j + 1 - i1) j
    if j1 < i1 then (data, j1)
    else partitionLoop cmp a n (swap data i1 j1) (i1 + 1) (j1 - 1)

/-- Go `partitionCmpFunc`: one quicksort partition of `data[a:b]` around
`data[pivot]`; returns the slice, the pivot's new position and whether the
slice was already partitioned. -/
def partitionCmpFunc {α : Type} (cmp : α → α → Int) (data : List α) (a b pivot : Nat) :
    List α × Nat × Bool :=
  let data := swap data a pivot
  let i := scanUp (fun k => lessAt cmp data k a) (b - 1) (b - 1 + 1 - (a + 1)) (a + 1)
  let j := scanDown (fun k => !lessAt cmp data k a) i (b - 1 + 1 - i) (b - 1)
  if j < i then (swap data j a, j, true)
  else
    let r := partitionLoop cmp a (b - a) (swap data i j) (i + 1) (j - 1)
    (swap r.1 r.2 a, r.2, false)

/-- Loop of `partitionEqualCmpFunc` (the pivot sits at `data[a]`); returns the
slice and the final `i`. -/
def partitionEqualLoop {α : Type} (cmp : α → α → Int) (a : Nat) :
    Nat → List α → Nat → Nat → List α × Nat
  | 0, data, i, _ => (data, i)
  | n + 1, data, i, j =>
    let i1 := scanUp (fun k => !lessAt cmp data a k) j (j + 1 - i) i
    let j1 := scanDown (fun k => lessAt cmp data a k) i1 (j + 1 - i1) j
    if j1 < i1 then (data, i1)
    else partitionEqualLoop cmp a n (swap data i1 j1) (i1 + 1) (j1 - 1)

/-- Go `partitionEqualCmpFunc`: splits `data[a:b]` into the elements equal to
`data[pivot]` followed by the greater ones; returns the slice and the split. -/
def partitionEqualCmpFunc {α : Type} (cmp : α → α → Int) (data : List α) (a b pivot : Nat) :
    List α × Nat :=
  partitionEqualLoop cmp a (b - a) (swap data a pivot) (a + 1) (b - 1)

/-- Loop `for j := i - 1; j >= 1; j-- { if !less(j, j-1) break; swap j, j-1 }`
of `partialInsertionSortCmpFunc`, started at `j`. -/
def shiftLeft {α : Type} (cmp : α → α → Int) : Nat → List α → List α
  | 0, data => data
  | j + 1, data =>
    if lessAt cmp data (j + 1) j = true then shiftLeft cmp j (swap data (j + 1) j) else data

/-- Loop `for j := i + 1; j < b; j++ { if !less(j, j-1) break; swap j, j-1 }`
of `partialInsertionSortCmpFunc`, started at `j`. -/
def shiftRight {α : Type} (cmp : α → α → Int) (b : Nat) : Nat → Nat → List α → List α
  | 0, _, data => data
  | n + 1, j, data =>
    if j < b ∧ lessAt cmp data j (j - 1) = true then
      shiftRight cmp b n (j + 1) (swap data j (j - 1))
    else data

/-- Outer loop of `partialInsertionSortCmpFunc`, `for j := 0; j < maxSteps; j++`,
with `steps` iterations left and the running index `i`. -/
def insertionSteps {α : Type} (cmp : α → α → Int) (a b : Nat) :
    Nat → Nat → List α → List α × Bool
  | 0, _, data => (data, false)
  | s + 1, i, data =>
    let i1 := scanUp (fun k => !lessAt cmp data k (k - 1)) (b - 1) (b - i) i
    if i1 = b then (data, true)
    else if b - a < 50 then (data, false)
    else
      let d1 := swap data i1 (i1 - 1)
      let d2 := if 2 ≤ i1 - a then shiftLeft cmp (i1 - 1) d1 else d1
      let d3 := if 2 ≤ b - i1 then shiftRight cmp b (b - (i1 + 1)) (i1 + 1) d2 else d2
      insertionSteps cmp a b s i1 d3

/-- Go `partialInsertionSortCmpFunc`: at most `maxSteps = 5` repairs; the flag
says whether `data[a:b]` is sorted at the end. -/
def partialInsertionSortCmpFunc {α : Type} (cmp : α → α → Int) (data : List α) (a b : Nat) :
    List α × Bool :=
  insertionSteps cmp a b 5 (a + 1) data

/-- Go `bits.Len`: the number of bits needed to write `n`. -/
def bitsLenAux : Nat → Nat → Nat
  | 0, _ => 0
  | f + 1, n => if n = 0 then 0 else bitsLenAux f (n / 2) + 1

/-- Go `bits.Len(uint(n))`. -/
def bitsLen (n : Nat) : Nat := bitsLenAux n n

/-- Go `(*xorshift).Next` on a 64-bit state. The sort only uses it to pick the
positions `breakPatternsCmpFunc` exchanges; `pdqsortCmpFunc` takes the step
function as the argument `next`, and what is proved of the sort holds for
every step function. -/
def xorshiftNext (r : Nat) : Nat :=
  let r1 := r ^^^ ((r <<< 13) % 2 ^ 64)
  let r2 := r1 ^^^ (r1 >>> 7)
  r2 ^^^ ((r2 <<< 17) % 2 ^ 64)

/-- Go `nextPowerOfTwo`: `1 << bits.Len(length)`. -/
def nextPowerOfTwo (length : Nat) : Nat := 2 ^ bitsLen length

/-- One of the three iterations of the loop of `breakPatternsCmpFunc`; the state
is the generator state and the slice. -/
def breakPatternsStep {α : Type} (next : Nat → Nat) (a length modulus idx : Nat)
    (st : Nat × List α) (i : Nat) : Nat × List α :=
  let random := next st.1
  let other := random &&& (modulus - 1)
  let other1 := if length ≤ other then other - length else other
  (random, swap st.2 (idx - 1 + i) (a + other1))

/-- Go `breakPatternsCmpFunc`: scatters three elements around the middle of
`data[a:b]`; `next` is the step of the pseudo-random generator. -/
def breakPatternsCmpFunc {α : Type} (next : Nat → Nat) (data : List α) (a b : Nat) : List α :=
  if 8 ≤ b - a then
    ([0, 1, 2].foldl
      (breakPatternsStep next a (b - a) (nextPowerOfTwo (b - a)) (a + (b - a) / 4 * 2 - 1))
      (b - a, data)).2
  else data

/-- Go `sortedHint`. -/
inductive sortedHint where
  | unknownHint
  | increasingHint
  | decreasingHint
deriving DecidableEq, Repr

/-- Go `order2CmpFunc`: the two indices ordered by their elements, and the
swap counter. -/
def order2CmpFunc {α : Type} (cmp : α → α → Int) (data : List α) (a b swaps : Nat) :
    Nat × Nat × Nat :=
  if lessAt cmp data b a = true then (b, a, swaps + 1) else (a, b, swaps)

/-- Go `medianCmpFunc`: the index of the median of three, and the swap counter. -/
def medianCmpFunc {α : Type} (cmp : α → α → Int) (data : List α) (a b c swaps : Nat) :
    Nat × Nat :=
  let r1 := order2CmpFunc cmp data a b swaps
  let r2 := order2CmpFunc cmp data r1.2.1 c r1.2.2
  let r3 := order2CmpFunc cmp data r1.1 r2.1 r2.2.2
  (r3.2.1, r3.2.2)

/-- Go `medianAdjacentCmpFunc`. -/
def medianAdjacentCmpFunc {α : Type} (cmp : α → α → Int) (data : List α) (a swaps : Nat) :
    Nat × Nat :=
  medianCmpFunc cmp data (a - 1) a (a + 1) swaps

/-- Go `choosePivotCmpFunc`: a pivot index in `data[a:b]` and a hint on the
order of the slice (`shortestNinther = 50`, `maxSwaps = 12`). -/
def choosePivotCmpFunc {α : Type} (cmp : α → α → Int) (data : List α) (a b : Nat) :
    Nat × sortedHint :=
  let l := b - a
  let i := a + l / 4 * 1
  let j := a + l / 4 * 2
  let k := a + l / 4 * 3
  if 8 ≤ l then
    let r :=
      if 50 ≤ l then
        let ri := medianAdjacentCmpFunc cmp data i 0
        let rj := medianAdjacentCmpFunc cmp data j ri.2
        let rk := medianAdjacentCmpFunc cmp data k rj.2
        medianCmpFunc cmp data ri.1 rj.1 rk.1 rk.2
      else medianCmpFunc cmp data i j k 0
    if r.2 = 0 then (r.1, sortedHint.increasingHint)
    else if r.2 = 12 then (r.1, sortedHint.decreasingHint)
    else (r.1, sortedHint.unknownHint)
  else (j, sortedHint.increasingHint)

/-- Loop of `reverseRangeCmpFunc`: `for i < j { swap i, j; i++; j-- }`. -/
def reverseRangeLoop {α : Type} : Nat → List α → Nat → Nat → List α
  | 0, data, _, _ => data
  | n + 1, data, i, j =>
    if i < j then reverseRangeLoop n (swap data i j) (i + 1) (j - 1) else data

/-- Go `reverseRangeCmpFunc` on `data[a:b]`. -/
def reverseRangeCmpFunc {α : Type} (data : List α) (a b : Nat) : List α :=
  reverseRangeLoop (b - a) data a (b - 1)

/-- Go `pdqsortCmpFunc` on `data[a:b]`. One unit of fuel is spent per iteration
of the `for` loop and per recursive call; every one of them works on a strictly
shorter range. The two flags are the loop variables `wasBalanced` and
`wasPartitioned`, which a recursive call starts at `true`. -/
def pdqsortCmpFunc {α : Type} (cmp : α → α → Int) (next : Nat → Nat) :
    Nat → List α → Nat → Nat → Nat → Bool → Bool → List α
  | 0, data, _, _, _, _, _ => data
  | fuel + 1, data, a, b, limit, wasBalanced, wasPartitioned =>
    if b - a ≤ 12 then insertionSortCmpFunc cmp data a b
    else if limit = 0 then heapSortCmpFunc cmp data a b
    else
      let d1 := if wasBalanced then data else breakPatternsCmpFunc next data a b
      let limit1 := if wasBalanced then limit else limit - 1
      let ph := choosePivotCmpFunc cmp d1 a b
      let d2 := if ph.2 = sortedHint.decreasingHint then reverseRangeCmpFunc d1 a b else d1
      let pivot := if ph.2 = sortedHint.decreasingHint then (b - 1) - (ph.1 - a) else ph.1
      let hint := if ph.2 = sortedHint.decreasingHint then sortedHint.increasingHint else ph.2
      let pis :=
        if wasBalanced ∧ wasPartitioned ∧ hint = sortedHint.increasingHint then
          partialInsertionSortCmpFunc cmp d2 a b
        else (d2, false)
      if pis.2 = true then pis.1
      else if 0 < a ∧ lessAt cmp pis.1 (a - 1) pivot = false then
        let pe := partitionEqualCmpFunc cmp pis.1 a b pivot
        pdqsortCmpFunc cmp next fuel pe.1 pe.2 b limit1 wasBalanced wasPartitioned
      else
        let p := partitionCmpFunc cmp pis.1 a b pivot
        let mid := p.2.1
        if mid - a < b - mid then
          pdqsortCmpFunc cmp next fuel
            (pdqsortCmpFunc cmp next fuel p.1 a mid limit1 true true)
            (mid + 1) b limit1 (decide ((b - a) / 8 ≤ mid - a)) p.2.2
        else
          pdqsortCmpFunc cmp next fuel
            (pdqsortCmpFunc cmp next fuel p.1 (mid + 1) b limit1 true true)
            a mid limit1 (decide ((b - a) / 8 ≤ b - mid)) p.2.2

/-- Go `slices.SortFunc`: `pdqsortCmpFunc(x, 0, n, bits.Len(uint(n)), cmp)`. -/
def slices.SortFunc {α : Type} (x : List α) (cmp : α → α → Int) : List α :=
  pdqsortCmpFunc cmp xorshiftNext (x.length + 1) x 0 x.length (bitsLen x.length) true true

/-! ## The program: `src/main.go` -/

/-- Go `time.Time`, as the instant it denotes (nanoseconds). A file modification
time carries no monotonic clock reading, so `Compare` orders wall instants. -/
abbrev Time := Int

/-- Go `Time.Compare`: `-1`, `0` or `+1`. -/
def Time.Compare (t u : Time) : Int :=
  if t < u then -1 else if u < t then 1 else 0

/-- Go `type Screenshot struct { Path string; Time time.Time }`. -/
structure Screenshot where
  Path : String
  Time : Time
deriving DecidableEq, Repr

/-- Go `type Profile struct { Name string; Path string }`. -/
structure Profile where
  Name : String
  Path : String
deriving DecidableEq, Repr

/-- The comparison closure handed to `slices.SortFunc` (main.go:76-78). -/
def compareScreenshots (a b : Screenshot) : Int :=
  Time.Compare a.Time b.Time

/-- What the callback reads of an `fs.FileInfo`. -/
structure FileInfo where
  IsDir : Bool
  ModTime : Time
  Size : Int
deriving DecidableEq, Repr

/-- One call of the `filepath.Walk` callback: `(path, info, err)`; `info` is
`none` for a nil `fs.FileInfo`, `err` is `none` for a nil error. -/
structure WalkEntry where
  path : String
  info : Option FileInfo
  err : Option String
deriving DecidableEq, Repr

/-- An `int64` result: two's-complement wrap-around of an integer. -/
def wrapInt64 (x : Int) : Int :=
  (x + 2 ^ 63) % 2 ^ 64 - 2 ^ 63

/-- Go `os.IsPathSeparator`; on Windows the backslash separates too. -/
def os.IsPathSeparator (windows : Bool) (c : Char) : Bool :=
  c == '/' || (windows && c == '\\')

/-- Loop of `filepath.Ext`, walking the path from its last character; the
accumulator is the suffix walked so far. -/
def extLoop (windows : Bool) : List Char → List Char → List Char
  | [], _ => []
  | c :: rest, acc =>
    if os.IsPathSeparator windows c then []
    else if c = '.' then c :: acc
    else extLoop windows rest (c :: acc)

/-- Go `filepath.Ext`: the suffix beginning at the final dot of the final
element of the path, empty if there is none. Go walks the bytes of the path;
the dot and the separators are ASCII, so walking its characters is the same. -/
def filepath.Ext (windows : Bool) (path : String) : String :=
  String.mk (extLoop windows path.data.reverse [])

/-- The variables the scanner callback closes over. -/
structure ScanState where
  screenshots : List Screenshot
  totalSize : Int
deriving DecidableEq, Repr

/-- Result of one callback call: `none` is a run-time panic (a method call on a
nil `fs.FileInfo`); otherwise the new state and the error the callback returns. -/
abbrev WalkResult := Option (ScanState × Option String)

/-- The `filepath.Walk` callback of `TimelapseProfile` (main.go:62-75). The
`err` argument is never read; `||` evaluates `info.IsDir()` only when the
extension is `.png`. -/
def walkFn (windows : Bool) (st : ScanState) (e : WalkEntry) : WalkResult :=
  if filepath.Ext windows e.path ≠ ".png" then some (st, none)
  else
    match e.info with
    | none => none
    | some info =>
      if info.IsDir then some (st, none)
      else
        some ({ screenshots := st.screenshots ++ [{ Path := e.path, Time := info.ModTime }],
                totalSize := wrapInt64 (st.totalSize + info.Size) }, none)

/-- The walk: the callback runs on each delivered entry in turn. The callback
only ever returns a nil error, so the walk is never cut short by it; a panic
ends the program. -/
def scan (windows : Bool) : List WalkEntry → ScanState → Option ScanState
  | [], st => some st
  | e :: rest, st =>
    match walkFn windows st e with
    | none => none
    | some (st1, _) => scan windows rest st1

/-- File contents. -/
abbrev Bytes := List Nat

/-- What `TimelapseProfile` does to the outside world, in program order. -/
inductive Effect where
  | prompt (text : String)
  | stdinPipe
  | stderr (text : String)
  | waitInput
  | start (args : List String)
  | readFile (path : String)
  | barNew (max : Nat)
  | barAdd (n : Nat)
  | pipeWrite (chunk : Bytes)
  | pipeClose
  | wait
deriving DecidableEq, Repr

/-- How a run ends: the function returns, the process exits with a status, or
the program panics. -/
inductive Outcome where
  | returned
  | exited (code : Nat)
  | panicked
deriving DecidableEq, Repr

/-- Everything outside the program that `TimelapseProfile` consults. -/
structure Env where
  /-- Windows path separators. -/
  windows : Bool
  /-- What `prompt` returns for the frame-rate question: the line read, trimmed
  by `strings.TrimSpace` (main.go:46-51). -/
  framerate : String
  /-- The callback calls `filepath.Walk` makes, in order. -/
  walk : List WalkEntry
  /-- Error of `cmd.StdinPipe()`, if any. -/
  stdinPipeErr : Option String
  /-- Error of `cmd.Start()`, if any. -/
  startErr : Option String
  /-- Answer of `os.ReadFile`: the contents, or the error text. -/
  readFile : String → Except String Bytes
  /-- Error of `cmd.Wait()`, if any. -/
  waitErr : Option String
  /-- Content of the buffer capturing the subprocess's stdout and stderr. -/
  output : String
  /-- The function `ByteCountIEC` (main.go:26-38; it formats a float). -/
  ByteCountIEC : Int → String
  /-- Text of `time.Since(t1).String()`. -/
  elapsed : String

/-- State of the streaming loop (main.go:109-120). -/
structure StreamState where
  skipped : Nat
  trace : List Effect
deriving DecidableEq, Repr

/-- One iteration of the streaming loop. -/
def streamStep (readFile : String → Except String Bytes) (st : StreamState) (s : Screenshot) :
    StreamState :=
  match readFile s.Path with
  | Except.error err =>
    { skipped := st.skipped + 1,
      trace := st.trace ++
        [Effect.readFile s.Path,
         Effect.stderr ("Failed to read '" ++ s.Path ++ "', skipping. Error: " ++ err ++ "\n")] }
  | Except.ok bytes =>
    { skipped := st.skipped,
      trace := st.trace ++ [Effect.readFile s.Path, Effect.barAdd 1, Effect.pipeWrite bytes] }

/-- The streaming loop `for _, s := range screenshots` (main.go:111-120). -/
def streamLoop (readFile : String → Except String Bytes) (screenshots : List Screenshot) :
    StreamState :=
  screenshots.foldl (streamStep readFile) { skipped := 0, trace := [] }

/-- The frame rate handed to the encoder (main.go:54-57). -/
def framerateOrDefault (framerate : String) : String :=
  if framerate = "" then "5" else framerate

/-- The argument list `cmd.Args` (main.go:81-93). -/
def ffmpegArgs (name framerate : String) : List String :=
  ["ffmpeg",
   "-f", "image2pipe",
   "-framerate", framerate,
   "-i", "-",
   "-s:v", "1920x1080",
   "-c:v", "libx264",
   "-vf", "format=yuv422p",
   "-r", "60",
   "-movflags", "+faststart",
   "-y",
   name ++ ".mp4"]

/-- A finished run of `TimelapseProfile`. -/
structure Run where
  /-- The sorted screenshots (empty when the scan panicked). -/
  screenshots : List Screenshot
  totalSize : Int
  skipped : Nat
  trace : List Effect
  outcome : Outcome
deriving DecidableEq, Repr

/-- The call `prompt(...)` of main.go:54: the question goes to standard error
and a line is read from standard input. -/
def framerateQuestion : Effect :=
  Effect.prompt "Specify a framerate. Leave empty for a default of 5.\n> "

/-- The run of `TimelapseProfile` when the scan completes and the pipe opens,
on the sorted catalog and its total size (main.go:94-135 after main.go:54). -/
def runEncoder (env : Env) (profile : Profile) (screenshots : List Screenshot)
    (totalSize : Int) : Run :=
  let loop := streamLoop env.readFile screenshots
  let upToWait :=
    [framerateQuestion, Effect.stdinPipe,
     Effect.stderr ("Found " ++ toString screenshots.length ++ " screenshots. Total size: "
        ++ env.ByteCountIEC totalSize ++ "\n"),
     Effect.start (ffmpegArgs profile.Name (framerateOrDefault env.framerate)),
     Effect.barNew screenshots.length]
    ++ loop.trace ++ [Effect.pipeClose, Effect.wait]
  match env.waitErr with
  | some err =>
    { screenshots := screenshots, totalSize := totalSize, skipped := loop.skipped,
      trace := upToWait ++
        [Effect.stderr ("ffmpeg error: " ++ err ++ "\n" ++ env.output ++ "\n"),
         Effect.waitInput],
      outcome := Outcome.exited 1 }
  | none =>
    { screenshots := screenshots, totalSize := totalSize, skipped := loop.skipped,
      trace := upToWait ++
        (if 0 < loop.skipped then
          [Effect.stderr ("Skipped " ++ toString loop.skipped
            ++ " screenshots. See output for info\n")]
         else [])
        ++ [Effect.stderr ("Finished in " ++ env.elapsed ++ "\n"), Effect.waitInput],
      outcome := Outcome.returned }

/-- Go `TimelapseProfile` (main.go:53-135). -/
def TimelapseProfile (env : Env) (profile : Profile) : Run :=
  match scan env.windows env.walk { screenshots := [], totalSize := 0 } with
  | none =>
    { screenshots := [], totalSize := 0, skipped := 0, trace := [framerateQuestion],
      outcome := Outcome.panicked }
  | some st =>
    let screenshots := slices.SortFunc st.screenshots compareScreenshots
    match env.stdinPipeErr with
    | some err =>
      { screenshots := screenshots, totalSize := st.totalSize, skipped := 0,
        trace := [framerateQuestion, Effect.stdinPipe,
                  Effect.stderr ("failed to open ffmpeg pipe: " ++ err ++ "\n"),
                  Effect.waitInput],
        outcome := Outcome.exited 1 }
    | none => runEncoder env profile screenshots st.totalSize

/-! ## Observations on a run -/

/-- The chunks written to the pipe, in order. -/
def pipeWrites : List Effect → List Bytes
  | [] => []
  | Effect.pipeWrite chunk :: rest => chunk :: pipeWrites rest
  | _ :: rest => pipeWrites rest

/-- The paths handed to `os.ReadFile`, in order. -/
def readAttempts : List Effect → List String
  | [] => []
  | Effect.readFile path :: rest => path :: readAttempts rest
  | _ :: rest => readAttempts rest

/-- Total advance of the progress bar: the sum of the `bar.Add` arguments. -/
def barAdvance : List Effect → Nat
  | [] => 0
  | Effect.barAdd n :: rest => n + barAdvance rest
  | _ :: rest => barAdvance rest

/-- The texts written to standard error, in order. -/
def stderrTexts : List Effect → List String
  | [] => []
  | Effect.stderr text :: rest => text :: stderrTexts rest
  | _ :: rest => stderrTexts rest

/-- The argument lists the encoder was started with, in order. -/
def startCalls : List Effect → List (List String)
  | [] => []
  | Effect.start args :: rest => args :: startCalls rest
  | _ :: rest => startCalls rest

/-- The effect is a frame read or a pipe write. -/
def Effect.isFrameIO : Effect → Bool
  | Effect.readFile _ => true
  | Effect.pipeWrite _ => true
  | _ => false

/-- The frame's file can be read. -/
def readable (readFile : String → Except String Bytes) (s : Screenshot) : Bool :=
  match readFile s.Path with
  | Except.ok _ => true
  | Except.error _ => false

/-- The frame's content, when its file can be read. -/
def content (readFile : String → Except String Bytes) (s : Screenshot) : Option Bytes :=
  match readFile s.Path with
  | Except.ok bytes => some bytes
  | Except.error _ => none

/-- The callback call `filepath.Walk` makes for an entry it could stat. -/
def delivered (e : String × FileInfo) : WalkEntry :=
  { path := e.1, info := some e.2, err := none }

/-- The condition under which the callback records an entry (main.go:63). -/
def qualifies (windows : Bool) (e : String × FileInfo) : Bool :=
  decide (filepath.Ext windows e.1 = ".png") && !e.2.IsDir

/-- One text is a contiguous part of another. -/
def containsText (text part : String) : Prop :=
  part.data <:+: text.data

/-! ## Sample environments -/

/-- The entries of the sample walk: three screenshots discovered with times 2,
1, 3, next to the profile directory, a text file and a file with an upper-case
extension. -/
def sampleEntries : List (String × FileInfo) :=
  [("p1", { IsDir := true, ModTime := 0, Size := 4096 }),
   ("p1/a.png", { IsDir := false, ModTime := 2, Size := 10 }),
   ("p1/b.png", { IsDir := false, ModTime := 1, Size := 20 }),
   ("p1/notes.txt", { IsDir := false, ModTime := 5, Size := 7 }),
   ("p1/C.PNG", { IsDir := false, ModTime := 6, Size := 9 }),
   ("p1/c.png", { IsDir := false, ModTime := 3, Size := 30 })]

/-- A sample environment: the sample walk delivered without error, the second
screenshot unreadable, an empty answer to the frame-rate question, and an
encoder that succeeds. Totals under 1024 bytes are formatted as `ByteCountIEC`
does (`%d B`). -/
def sampleEnv : Env :=
  { windows := false
    framerate := ""
    walk := sampleEntries.map delivered
    stdinPipeErr := none
    startErr := none
    readFile := fun path =>
      if path = "p1/b.png" then Except.error "permission denied" else Except.ok [path.length]
    waitErr := none
    output := ""
    ByteCountIEC := fun b => toString b ++ " B"
    elapsed := "1s" }

/-- The sample profile. -/
def sampleProfile : Profile := { Name := "p1", Path := "p1" }

/-- The sample environment with a failing encoder. -/
def failingEncoderEnv : Env :=
  { sampleEnv with waitErr := some "exit status 1", output := "Unknown encoder libx264" }

/-- The sample environment with an encoder that cannot be started: `cmd.Start`
fails, and `cmd.Wait` then reports that the command was not started. -/
def missingEncoderEnv : Env :=
  { sampleEnv with
    walk := []
    startErr := some "fork/exec /usr/bin/ffmpeg: permission denied"
    waitErr := some "exec: not started" }

/-- A walk that delivers a `.png` entry it could not stat: nil info and the
`lstat` error. -/
def unreadableEntryEnv : Env :=
  { sampleEnv with
    walk := [delivered ("p1", { IsDir := true, ModTime := 0, Size := 4096 }),
             { path := "p1/a.png", info := none,
               err := some "lstat p1/a.png: permission denied" },
             delivered ("p1/b.png", { IsDir := false, ModTime := 1, Size := 20 })] }

/-- The catalog of the sample environment. -/
def sampleScan : ScanState :=
  { screenshots := [{ Path := "p1/a.png", Time := 2 }, { Path := "p1/b.png", Time := 1 },
                    { Path := "p1/c.png", Time := 3 }],
    totalSize := 60 }

/-- Thirteen frames in discovery order; all carry capture time 1 except the
seventh, which carries 0. -/
def unstableInput : List Screenshot :=
  [{ Path := "f00.png", Time := 1 }, { Path := "f01.png", Time := 1 },
   { Path := "f02.png", Time := 1 }, { Path := "f03.png", Time := 1 },
   { Path := "f04.png", Time := 1 }, { Path := "f05.png", Time := 1 },
   { Path := "f06.png", Time := 0 }, { Path := "f07.png", Time := 1 },
   { Path := "f08.png", Time := 1 }, { Path := "f09.png", Time := 1 },
   { Path := "f10.png", Time := 1 }, { Path := "f11.png", Time := 1 },
   { Path := "f12.png", Time := 1 }]

/-- Twelve frames in discovery order, with three capture times shared among
them. -/
def tiedInput : List Screenshot :=
  [{ Path := "g00.png", Time := 1 }, { Path := "g01.png", Time := 1 },
   { Path := "g02.png", Time := 2 }, { Path := "g03.png", Time := 1 },
   { Path := "g04.png", Time := 2 }, { Path := "g05.png", Time := 1 },
   { Path := "g06.png", Time := 0 }, { Path := "g07.png", Time := 1 },
   { Path := "g08.png", Time := 2 }, { Path := "g09.png", Time := 0 },
   { Path := "g10.png", Time := 1 }, { Path := "g11.png", Time := 0 }]

/-- The frames of a list that carry the capture time `t`, in list order. -/
def framesAt (t : Time) (frames : List Screenshot) : List Screenshot :=
  frames.filter (fun s => decide (s.Time = t))

/-- Two entries of 2^62 bytes each. -/
def hugeEntries : List (String × FileInfo) :=
  [("p1/a.png", { IsDir := false, ModTime := 1, Size := 2 ^ 62 }),
   ("p1/b.png", { IsDir := false, ModTime := 2, Size := 2 ^ 62 })]

/-- The diagnostic the streaming loop writes for a frame whose read fails
(main.go:114). -/
def readFailure (readFile : String → Except String Bytes) (s : Screenshot) : Option String :=
  match readFile s.Path with
  | Except.ok _ => none
  | Except.error err => some ("Failed to read '" ++ s.Path ++ "', skipping. Error: " ++ err ++ "\n")

/-- The sample environment with a pipe that cannot be opened. -/
def brokenPipeEnv : Env :=
  { sampleEnv with stdinPipeErr := some "too many open files" }

/-! ## Vocabulary for the sort -/

/-- The sort key at a slice position (`0` outside the slice). -/
def kAt {α : Type} (key : α → Int) (data : List α) (i : Nat) : Int :=
  match data[i]? with
  | some x => key x
  | none => 0

/-- The slice `d1` is `d` with the elements of `d[a:b]` rearranged among
themselves: same length, a permutation, equal outside `[a, b)`, and every
element of `d1[a:b]` is one of `d[a:b]`. -/
def Shuffle {α : Type} (d d1 : List α) (a b : Nat) : Prop :=
  d1.length = d.length
  ∧ d1.Perm d
  ∧ (∀ k, k < a ∨ b ≤ k → d1[k]? = d[k]?)
  ∧ (∀ k, a ≤ k → k < b → ∃ k1, a ≤ k1 ∧ k1 < b ∧ d1[k]? = d[k1]?)

/-- The keys of `d[a:b]` are in non-decreasing order. -/
def SortedOn {α : Type} (key : α → Int) (d : List α) (a b : Nat) : Prop :=
  ∀ i j, a ≤ i → i ≤ j → j < b → kAt key d i ≤ kAt key d j

/-- The comparison function is the order of the keys. -/
def KeyOrder {α : Type} (cmp : α → α → Int) (key : α → Int) : Prop :=
  ∀ x y, cmp x y < 0 ↔ key x < key y

/-- The element before the range, if there is one, is no greater than any
element of `d[a:b]`. -/
def LowerBounded {α : Type} (key : α → Int) (d : List α) (a b : Nat) : Prop :=
  0 < a → ∀ k, a ≤ k → k < b → kAt key d (a - 1) ≤ kAt key d k

/-- Heap property of `d[first : first+hi]` at the nodes from `lo` on: no child
is greater than its parent. -/
def HeapFrom {α : Type} (key : α → Int) (d : List α) (first hi lo : Nat) : Prop :=
  ∀ r c, lo ≤ r → (c = 2 * r + 1 ∨ c = 2 * r + 2) → c < hi →
    kAt key d (first + c) ≤ kAt key d (first + r)

/-! ## The streaming loop -/

/-- The effects of one iteration of the streaming loop. -/
theorem streamStep_trace (readFile : String → Except String Bytes) (st : StreamState)
    (s : Screenshot) :
    (streamStep readFile st s).trace =
      st.trace ++ (streamStep readFile { skipped := 0, trace := [] } s).trace := by
  cases h : readFile s.Path <;> simp [streamStep, h]

theorem streamStep_skipped (readFile : String → Except String Bytes) (st : StreamState)
    (s : Screenshot) :
    (streamStep readFile st s).skipped =
      st.skipped + (if readable readFile s then 0 else 1) := by
  cases h : readFile s.Path <;> simp [streamStep, readable, h]

theorem pipeWrites_append (t u : List Effect) :
    pipeWrites (t ++ u) = pipeWrites t ++ pipeWrites u := by
  induction t with
  | nil => rfl
  | cons e t ih => cases e <;> simp [pipeWrites, ih]

theorem readAttempts_append (t u : List Effect) :
    readAttempts (t ++ u) = readAttempts t ++ readAttempts u := by
  induction t with
  | nil => rfl
  | cons e t ih => cases e <;> simp [readAttempts, ih]

theorem barAdvance_append (t u : List Effect) :
    barAdvance (t ++ u) = barAdvance t + barAdvance u := by
  induction t with
  | nil => simp [barAdvance]
  | cons e t ih => cases e <;> simp [barAdvance, ih, Nat.add_assoc]

theorem stderrTexts_append (t u : List Effect) :
    stderrTexts (t ++ u) = stderrTexts t ++ stderrTexts u := by
  induction t with
  | nil => rfl
  | cons e t ih => cases e <;> simp [stderrTexts, ih]

/-- The loop from an arbitrary state: what it adds to the state. -/
theorem foldl_streamStep (readFile : String → Except String Bytes) (frames : List Screenshot)
    (st : StreamState) :
    (frames.foldl (streamStep readFile) st).skipped
        = st.skipped + frames.countP (fun s => !readable readFile s)
    ∧ pipeWrites (frames.foldl (streamStep readFile) st).trace
        = pipeWrites st.trace ++ frames.filterMap (content readFile)
    ∧ readAttempts (frames.foldl (streamStep readFile) st).trace
        = readAttempts st.trace ++ frames.map (fun s => s.Path)
    ∧ barAdvance (frames.foldl (streamStep readFile) st).trace
        = barAdvance st.trace + frames.countP (readable readFile)
    ∧ Effect.pipeClose ∉ (frames.foldl (streamStep readFile) st).trace.drop st.trace.length
    ∧ Effect.wait ∉ (frames.foldl (streamStep readFile) st).trace.drop st.trace.length
    ∧ st.trace <+: (frames.foldl (streamStep readFile) st).trace := by
  induction frames generalizing st with
  | nil => simp
  | cons s frames ih =>
    obtain ⟨h1, h2, h3, h4, h5, h6, h7⟩ := ih (streamStep readFile st s)
    simp only [List.foldl_cons]
    have hs : (streamStep readFile st s).trace =
        st.trace ++ (streamStep readFile { skipped := 0, trace := [] } s).trace :=
      streamStep_trace readFile st s
    have hk := streamStep_skipped readFile st s
    have hrc : ∀ (x : Effect), x = Effect.pipeClose ∨ x = Effect.wait →
        x ∉ (streamStep readFile { skipped := 0, trace := [] } s).trace := by
      intro x hx
      cases h : readFile s.Path <;> rcases hx with rfl | rfl <;> simp [streamStep, h]
    have hdrop : ∀ (x : Effect), x = Effect.pipeClose ∨ x = Effect.wait →
        x ∉ (frames.foldl (streamStep readFile) (streamStep readFile st s)).trace.drop
              (streamStep readFile st s).trace.length →
        x ∉ (frames.foldl (streamStep readFile) (streamStep readFile st s)).trace.drop
              st.trace.length := by
      intro x hx hnot hin
      obtain ⟨rest, hrest⟩ := h7
      rw [← hrest] at hnot hin
      rw [List.drop_left] at hnot
      rw [hs, List.append_assoc, List.drop_left] at hin
      rcases List.mem_append.mp hin with h | h
      · exact hrc x hx h
      · exact hnot h
    refine ⟨?_, ?_, ?_, ?_, hdrop _ (Or.inl rfl) h5, hdrop _ (Or.inr rfl) h6, ?_⟩
    · rw [h1, hk, List.countP_cons]
      cases readable readFile s <;> simp <;> omega
    · rw [h2, hs, pipeWrites_append]
      cases h : readFile s.Path <;>
        simp [streamStep, content, h, pipeWrites, List.filterMap_cons]
    · rw [h3, hs, readAttempts_append]
      cases h : readFile s.Path <;> simp [streamStep, h, readAttempts]
    · rw [h4, hs, barAdvance_append, List.countP_cons]
      cases h : readFile s.Path <;> simp [streamStep, readable, h, barAdvance] <;> omega
    · exact (List.prefix_append _ _).trans (hs ▸ h7)

theorem length_filterMap_content (readFile : String → Except String Bytes)
    (frames : List Screenshot) :
    (frames.filterMap (content readFile)).length = frames.countP (readable readFile) := by
  induction frames with
  | nil => rfl
  | cons s frames ih =>
    rw [List.filterMap_cons, List.countP_cons]
    cases h : readFile s.Path <;> simp [content, readable, h, ih]

theorem streamLoop_spec (readFile : String → Except String Bytes) (frames : List Screenshot) :
    (streamLoop readFile frames).skipped = frames.countP (fun s => !readable readFile s)
    ∧ pipeWrites (streamLoop readFile frames).trace = frames.filterMap (content readFile)
    ∧ readAttempts (streamLoop readFile frames).trace = frames.map (fun s => s.Path)
    ∧ barAdvance (streamLoop readFile frames).trace = frames.countP (readable readFile)
    ∧ Effect.pipeClose ∉ (streamLoop readFile frames).trace
    ∧ Effect.wait ∉ (streamLoop readFile frames).trace := by
  have h := foldl_streamStep readFile frames { skipped := 0, trace := [] }
  simp only [pipeWrites, readAttempts, barAdvance, List.nil_append, Nat.zero_add,
    List.length_nil, List.drop_zero] at h
  exact ⟨h.1, h.2.1, h.2.2.1, h.2.2.2.1, h.2.2.2.2.1, h.2.2.2.2.2.1⟩

/-- The trace of `runEncoder`, split at the close of the pipe. -/
theorem runEncoder_trace (env : Env) (profile : Profile) (screenshots : List Screenshot)
    (totalSize : Int) :
    ∃ head tail,
      (runEncoder env profile screenshots totalSize).trace =
        (head ++ (streamLoop env.readFile screenshots).trace)
          ++ Effect.pipeClose :: Effect.wait :: tail
      ∧ head = [framerateQuestion, Effect.stdinPipe,
          Effect.stderr ("Found " ++ toString screenshots.length
            ++ " screenshots. Total size: " ++ env.ByteCountIEC totalSize ++ "\n"),
          Effect.start (ffmpegArgs profile.Name (framerateOrDefault env.framerate)),
          Effect.barNew screenshots.length]
      ∧ (∀ e ∈ tail, ∃ text, e = Effect.stderr text ∨ e = Effect.waitInput)
      ∧ (∀ err, env.waitErr = some err →
          tail = [Effect.stderr ("ffmpeg error: " ++ err ++ "\n" ++ env.output ++ "\n"),
            Effect.waitInput]) := by
  cases h : env.waitErr with
  | some err =>
    refine ⟨_, [Effect.stderr ("ffmpeg error: " ++ err ++ "\n" ++ env.output ++ "\n"),
      Effect.waitInput], ?_, rfl, ?_, ?_⟩
    · simp [runEncoder, h]
    · intro e he
      simp only [List.mem_cons, List.mem_singleton, List.not_mem_nil, or_false] at he
      rcases he with rfl | rfl
      · exact ⟨_, Or.inl rfl⟩
      · exact ⟨"", Or.inr rfl⟩
    · intro err1 h1
      cases h1
      rfl
  | none =>
    refine ⟨_, (if 0 < (streamLoop env.readFile screenshots).skipped then
          [Effect.stderr ("Skipped " ++ toString (streamLoop env.readFile screenshots).skipped
            ++ " screenshots. See output for info\n")]
         else [])
        ++ [Effect.stderr ("Finished in " ++ env.elapsed ++ "\n"), Effect.waitInput],
        ?_, rfl, ?_, ?_⟩
    · simp [runEncoder, h]
    · intro e he
      split at he
      · simp only [List.cons_append, List.nil_append, List.mem_cons, List.mem_singleton,
          List.not_mem_nil, or_false] at he
        rcases he with rfl | rfl | rfl
        · exact ⟨_, Or.inl rfl⟩
        · exact ⟨_, Or.inl rfl⟩
        · exact ⟨"", Or.inr rfl⟩
      · simp only [List.nil_append, List.mem_cons, List.mem_singleton,
          List.not_mem_nil, or_false] at he
        rcases he with rfl | rfl
        · exact ⟨_, Or.inl rfl⟩
        · exact ⟨"", Or.inr rfl⟩
    · intro err1 h1
      cases h1

/-! ## The scanner -/

theorem wrapInt64_add (x y : Int) : wrapInt64 (wrapInt64 x + y) = wrapInt64 (x + y) := by
  unfold wrapInt64; omega

theorem wrapInt64_of_range (x : Int) (h1 : -2 ^ 63 ≤ x) (h2 : x < 2 ^ 63) : wrapInt64 x = x := by
  unfold wrapInt64; omega

/-- The callback on an entry delivered without error. -/
theorem walkFn_delivered (windows : Bool) (st : ScanState) (e : String × FileInfo) :
    walkFn windows st (delivered e) =
      some (if qualifies windows e then
              { screenshots := st.screenshots ++ [{ Path := e.1, Time := e.2.ModTime }],
                totalSize := wrapInt64 (st.totalSize + e.2.Size) }
            else st, none) := by
  unfold walkFn qualifies delivered
  by_cases h : filepath.Ext windows e.1 = ".png"
  · cases hd : e.2.IsDir <;> simp [h, hd]
  · simp [h]

/-- The scan of entries delivered without error, from a state whose total is
the wrapped value of `t`. -/
theorem scan_delivered (windows : Bool) (entries : List (String × FileInfo)) (st : ScanState)
    (t : Int) (ht : st.totalSize = wrapInt64 t) :
    scan windows (entries.map delivered) st =
      some { screenshots := st.screenshots ++
               ((entries.filter (qualifies windows)).map
                 (fun e => { Path := e.1, Time := e.2.ModTime })),
             totalSize := wrapInt64
               (t + ((entries.filter (qualifies windows)).map (fun e => e.2.Size)).sum) } := by
  induction entries generalizing st t with
  | nil => simp [scan, ← ht]
  | cons e entries ih =>
    rw [List.map_cons, scan, walkFn_delivered]
    by_cases hq : qualifies windows e = true
    · simp only [hq, if_true]
      rw [ih _ (t + e.2.Size) (by simp [ht, wrapInt64_add])]
      simp [List.filter_cons, hq, add_assoc]
    · simp only [hq, Bool.false_eq_true, if_false]
      rw [ih _ t ht]
      simp [List.filter_cons, hq]

/-- A scan only appends frames, and leaves the total alone when it appends none. -/
theorem scan_grows (windows : Bool) (walk : List WalkEntry) (st st1 : ScanState)
    (h : scan windows walk st = some st1) :
    st.screenshots.length ≤ st1.screenshots.length
    ∧ (st1.screenshots.length = st.screenshots.length → st1.totalSize = st.totalSize) := by
  induction walk generalizing st with
  | nil => simp [scan] at h; subst h; simp
  | cons e walk ih =>
    rw [scan] at h
    cases hw : walkFn windows st e with
    | none => simp [hw] at h
    | some r =>
      obtain ⟨st2, er⟩ := r
      simp only [hw] at h
      obtain ⟨h1, h2⟩ := ih st2 h
      have hstep : st.screenshots.length ≤ st2.screenshots.length
          ∧ (st2.screenshots.length = st.screenshots.length → st2.totalSize = st.totalSize) := by
        unfold walkFn at hw
        split at hw
        · simp at hw; rw [← hw.1]; simp
        · split at hw
          · simp at hw
          · split at hw
            · simp at hw; rw [← hw.1]; simp
            · simp at hw; rw [← hw.1]; simp
      constructor
      · omega
      · intro heq
        rw [h2 (by omega), hstep.2 (by omega)]

/-! ## `filepath.Ext` -/

theorem extLoop_eq (windows : Bool) (cs acc r : List Char) (h : extLoop windows cs acc = r)
    (hr : r ≠ []) :
    ∃ pre rest, cs = pre ++ '.' :: rest ∧ r = '.' :: (pre.reverse ++ acc) := by
  induction cs generalizing acc with
  | nil => simp [extLoop] at h; exact absurd h hr
  | cons c cs ih =>
    rw [extLoop] at h
    split at h
    · exact absurd h.symm hr
    · split at h
      · rename_i hc
        subst hc
        exact ⟨[], cs, rfl, by simp [← h]⟩
      · obtain ⟨pre, rest, h1, h2⟩ := ih (c :: acc) h
        exact ⟨c :: pre, rest, by simp [h1], by simp [h2]⟩

/-- The extension is `.png` exactly when the path ends in the four characters
`.png`. -/
theorem ext_eq_png_iff (windows : Bool) (path : String) :
    filepath.Ext windows path = ".png" ↔ ".png".data <:+ path.data := by
  have hlit : (".png" : String) = String.mk ['.', 'p', 'n', 'g'] := rfl
  constructor
  · intro h
    unfold filepath.Ext at h
    rw [hlit] at h
    have h := congrArg String.data h
    simp only at h
    obtain ⟨pre, rest, h1, h2⟩ := extLoop_eq windows _ _ _ h (by simp)
    simp only [List.append_nil, List.cons.injEq, true_and] at h2
    have hpre : pre = ['g', 'n', 'p'] := by
      have := congrArg List.reverse h2
      simpa using this.symm
    subst hpre
    have hp : path.data = rest.reverse ++ ['.', 'p', 'n', 'g'] := by
      have := congrArg List.reverse h1
      simpa using this
    rw [hp]
    exact ⟨rest.reverse, rfl⟩
  · rintro ⟨pre, hpre⟩
    unfold filepath.Ext
    rw [← hpre]
    have : (".png" : String).data = ['.', 'p', 'n', 'g'] := rfl
    rw [this, hlit]
    cases windows <;> simp [extLoop, os.IsPathSeparator]

/-! ## Slice exchanges -/

theorem swap_length {α : Type} (d : List α) (i j : Nat) : (swap d i j).length = d.length := by
  unfold swap
  split <;> simp

theorem getElem?_swap {α : Type} (d : List α) (i j k : Nat) (hi : i < d.length)
    (hj : j < d.length) :
    (swap d i j)[k]? = if k = j then d[i]? else if k = i then d[j]? else d[k]? := by
  unfold swap
  rw [List.getElem?_eq_getElem hi, List.getElem?_eq_getElem hj]
  simp only [List.getElem?_set]
  by_cases h1 : k = j
  · subst h1; simp [hi, hj]
  · by_cases h2 : k = i
    · subst h2; simp [h1, hi, Ne.symm h1]
    · simp [h1, h2, Ne.symm h1, Ne.symm h2]

theorem swap_of_length_le {α : Type} (d : List α) (i j : Nat)
    (h : d.length ≤ i ∨ d.length ≤ j) : swap d i j = d := by
  unfold swap
  rcases h with h | h
  · rw [List.getElem?_eq_none h]
  · rw [List.getElem?_eq_none h]
    split <;> simp_all

theorem cons_set_perm {α : Type} (t : List α) (n : Nat) (x y : α) (h : t[n]? = some y) :
    (y :: t.set n x).Perm (x :: t) := by
  induction t generalizing n with
  | nil => simp at h
  | cons e t ih =>
    cases n with
    | zero =>
      simp only [List.getElem?_cons_zero, Option.some.injEq] at h
      subst h
      exact List.Perm.swap _ _ _
    | succ n =>
      simp only [List.getElem?_cons_succ] at h
      simp only [List.set_cons_succ]
      exact (List.Perm.swap _ _ _).trans (((ih n h).cons e).trans (List.Perm.swap _ _ _))

theorem set_set_perm {α : Type} (d : List α) (i j : Nat) (x y : α) (hx : d[i]? = some x)
    (hy : d[j]? = some y) : ((d.set i y).set j x).Perm d := by
  induction d generalizing i j with
  | nil => simp at hx
  | cons e t ih =>
    cases i with
    | zero =>
      simp only [List.getElem?_cons_zero, Option.some.injEq] at hx
      subst hx
      cases j with
      | zero =>
        simp only [List.getElem?_cons_zero, Option.some.injEq] at hy
        subst hy
        simp
      | succ j =>
        simp only [List.getElem?_cons_succ] at hy
        simp only [List.set_cons_zero, List.set_cons_succ]
        exact cons_set_perm t j e y hy
    | succ i =>
      simp only [List.getElem?_cons_succ] at hx
      cases j with
      | zero =>
        simp only [List.getElem?_cons_zero, Option.some.injEq] at hy
        subst hy
        simp only [List.set_cons_zero, List.set_cons_succ]
        exact cons_set_perm t i e x hx
      | succ j =>
        simp only [List.getElem?_cons_succ] at hy
        simp only [List.set_cons_succ]
        exact (ih i j hx hy).cons e

theorem swap_perm {α : Type} (d : List α) (i j : Nat) : (swap d i j).Perm d := by
  unfold swap
  split
  · rename_i x y hx hy
    exact set_set_perm d i j x y hx hy
  · exact List.Perm.refl d

/-! ## Rearrangements within a range -/

theorem Shuffle.refl {α : Type} (d : List α) (a b : Nat) : Shuffle d d a b :=
  ⟨rfl, List.Perm.refl d, fun _ _ => rfl, fun k h1 h2 => ⟨k, h1, h2, rfl⟩⟩

theorem Shuffle.trans {α : Type} {d d1 d2 : List α} {a b : Nat} (h1 : Shuffle d d1 a b)
    (h2 : Shuffle d1 d2 a b) : Shuffle d d2 a b := by
  obtain ⟨l1, p1, o1, r1⟩ := h1
  obtain ⟨l2, p2, o2, r2⟩ := h2
  refine ⟨l2.trans l1, p2.trans p1, fun k hk => (o2 k hk).trans (o1 k hk), ?_⟩
  intro k ha hb
  obtain ⟨k1, ha1, hb1, e1⟩ := r2 k ha hb
  obtain ⟨k2, ha2, hb2, e2⟩ := r1 k1 ha1 hb1
  exact ⟨k2, ha2, hb2, e1.trans e2⟩

theorem Shuffle.mono {α : Type} {d d1 : List α} {a b a0 b0 : Nat} (h : Shuffle d d1 a b)
    (ha : a0 ≤ a) (hb : b ≤ b0) : Shuffle d d1 a0 b0 := by
  obtain ⟨l1, p1, o1, r1⟩ := h
  refine ⟨l1, p1, fun k hk => o1 k (by omega), ?_⟩
  intro k hka hkb
  by_cases hin : a ≤ k ∧ k < b
  · obtain ⟨k1, h1, h2, e⟩ := r1 k hin.1 hin.2
    exact ⟨k1, by omega, by omega, e⟩
  · exact ⟨k, hka, hkb, o1 k (by omega)⟩

theorem Shuffle.swap {α : Type} (d : List α) {a b i j : Nat} (hi : a ≤ i ∧ i < b)
    (hj : a ≤ j ∧ j < b) : Shuffle d (swap d i j) a b := by
  by_cases hl : i < d.length ∧ j < d.length
  · refine ⟨swap_length d i j, swap_perm d i j, ?_, ?_⟩
    · intro k hk
      rw [getElem?_swap d i j k hl.1 hl.2, if_neg (by omega), if_neg (by omega)]
    · intro k hka hkb
      rw [getElem?_swap d i j k hl.1 hl.2]
      by_cases h1 : k = j
      · exact ⟨i, hi.1, hi.2, by rw [if_pos h1]⟩
      · by_cases h2 : k = i
        · exact ⟨j, hj.1, hj.2, by rw [if_neg h1, if_pos h2]⟩
        · exact ⟨k, hka, hkb, by rw [if_neg h1, if_neg h2]⟩
  · rw [swap_of_length_le d i j (by omega)]
    exact Shuffle.refl d a b

/-- A rearrangement keeps every bound that holds on the whole range. -/
theorem Shuffle.forall_range {α : Type} {d d1 : List α} {a b : Nat} (h : Shuffle d d1 a b)
    (key : α → Int) (P : Int → Prop) (hP : ∀ k, a ≤ k → k < b → P (kAt key d k)) :
    ∀ k, a ≤ k → k < b → P (kAt key d1 k) := by
  intro k ha hb
  obtain ⟨k1, h1, h2, e⟩ := h.2.2.2 k ha hb
  have : kAt key d1 k = kAt key d k1 := by unfold kAt; rw [e]
  rw [this]
  exact hP k1 h1 h2

theorem Shuffle.kAt_outside {α : Type} {d d1 : List α} {a b : Nat} (h : Shuffle d d1 a b)
    (key : α → Int) (k : Nat) (hk : k < a ∨ b ≤ k) : kAt key d1 k = kAt key d k := by
  unfold kAt; rw [h.2.2.1 k hk]

theorem kAt_swap {α : Type} (key : α → Int) (d : List α) (i j k : Nat) (hi : i < d.length)
    (hj : j < d.length) :
    kAt key (swap d i j) k
      = if k = j then kAt key d i else if k = i then kAt key d j else kAt key d k := by
  unfold kAt
  rw [getElem?_swap d i j k hi hj]
  by_cases h1 : k = j
  · simp only [h1, if_true]
  · by_cases h2 : k = i
    · subst h2
      simp only [h1, if_true, if_false]
    · simp only [h1, h2, if_false]

theorem lessAt_iff {α : Type} {cmp : α → α → Int} {key : α → Int} (hk : KeyOrder cmp key)
    (d : List α) (i j : Nat) (hi : i < d.length) (hj : j < d.length) :
    lessAt cmp d i j = true ↔ kAt key d i < kAt key d j := by
  unfold lessAt kAt
  rw [List.getElem?_eq_getElem hi, List.getElem?_eq_getElem hj]
  simp [hk _ _]

theorem lessAt_false_iff {α : Type} {cmp : α → α → Int} {key : α → Int} (hk : KeyOrder cmp key)
    (d : List α) (i j : Nat) (hi : i < d.length) (hj : j < d.length) :
    lessAt cmp d i j = false ↔ kAt key d j ≤ kAt key d i := by
  rw [← Bool.not_eq_true, lessAt_iff hk d i j hi hj]
  omega

/-! ## Every helper of the sort rearranges its range -/

theorem insertionSortInner_shuffle {α : Type} (cmp : α → α → Int) (a b j : Nat) (d : List α)
    (hj : j < b) : Shuffle d (insertionSortInner cmp a j d) a b := by
  induction j generalizing d with
  | zero => exact Shuffle.refl d a b
  | succ j ih =>
    rw [insertionSortInner]
    split
    · rename_i h
      exact (Shuffle.swap d ⟨by omega, hj⟩ ⟨by omega, by omega⟩).trans (ih _ (by omega))
    · exact Shuffle.refl d a b

theorem foldl_range_shuffle {α : Type} (f : List α → Nat → List α) (a b : Nat)
    (hf : ∀ d i, i < b → Shuffle d (f d i) a b) (s n : Nat) (hn : s + n ≤ b) (d : List α) :
    Shuffle d ((List.range' s n).foldl f d) a b := by
  induction n generalizing s d with
  | zero => exact Shuffle.refl d a b
  | succ n ih =>
    rw [List.range'_succ, List.foldl_cons]
    exact (hf d s (by omega)).trans (ih (s + 1) (by omega) _)

theorem insertionSortCmpFunc_shuffle {α : Type} (cmp : α → α → Int) (d : List α) (a b : Nat) :
    Shuffle d (insertionSortCmpFunc cmp d a b) a b := by
  unfold insertionSortCmpFunc
  by_cases h : a + 1 ≤ b
  · exact foldl_range_shuffle _ a b
      (fun d i hi => insertionSortInner_shuffle cmp a b i d hi) _ _ (by omega) d
  · have : b - (a + 1) = 0 := by omega
    rw [this]
    exact Shuffle.refl d a b

theorem siftDownCmpFunc_shuffle {α : Type} (cmp : α → α → Int) (hi first n : Nat) (d : List α)
    (root : Nat) : Shuffle d (siftDownCmpFunc cmp hi first n d root) first (first + hi) := by
  induction n generalizing d root with
  | zero => exact Shuffle.refl _ _ _
  | succ n ih =>
    rw [siftDownCmpFunc]
    split
    · exact Shuffle.refl _ _ _
    · dsimp only
      generalize hc : (if 2 * root + 1 + 1 < hi ∧
          lessAt cmp d (first + (2 * root + 1)) (first + (2 * root + 1) + 1) = true
        then 2 * root + 1 + 1 else 2 * root + 1) = child
      have hcb : child < hi := by
        rw [← hc]; split <;> omega
      split
      · exact (Shuffle.swap d ⟨by omega, by omega⟩ ⟨by omega, by omega⟩).trans (ih _ _)
      · exact Shuffle.refl _ _ _

theorem heapBuild_shuffle {α : Type} (cmp : α → α → Int) (hi first k : Nat) (d : List α) :
    Shuffle d (heapBuild cmp hi first k d) first (first + hi) := by
  induction k generalizing d with
  | zero => exact Shuffle.refl _ _ _
  | succ k ih =>
    rw [heapBuild]
    exact (siftDownCmpFunc_shuffle cmp hi first hi d k).trans (ih _)

theorem heapPop_shuffle {α : Type} (cmp : α → α → Int) (first k : Nat) (d : List α) :
    Shuffle d (heapPop cmp first k d) first (first + k) := by
  induction k generalizing d with
  | zero => exact Shuffle.refl _ _ _
  | succ k ih =>
    rw [heapPop]
    have h1 : Shuffle d (swap d first (first + k)) first (first + (k + 1)) :=
      Shuffle.swap d ⟨by omega, by omega⟩ ⟨by omega, by omega⟩
    have h2 := (siftDownCmpFunc_shuffle cmp k first k (swap d first (first + k)) 0).mono
      (Nat.le_refl first) (show first + k ≤ first + (k + 1) by omega)
    exact h1.trans (h2.trans ((ih _).mono (Nat.le_refl first) (by omega)))

theorem heapSortCmpFunc_shuffle {α : Type} (cmp : α → α → Int) (d : List α) (a b : Nat)
    (hab : a ≤ b) : Shuffle d (heapSortCmpFunc cmp d a b) a b := by
  unfold heapSortCmpFunc
  have e : a + (b - a) = b := by omega
  have h1 := heapBuild_shuffle cmp (b - a) a ((b - a - 1) / 2 + 1) d
  have h2 := heapPop_shuffle cmp a (b - a) (heapBuild cmp (b - a) a ((b - a - 1) / 2 + 1) d)
  rw [e] at h1 h2
  exact h1.trans h2

/-! ## The two scanning loops -/

theorem scanUp_spec (p : Nat → Bool) (j n i : Nat) (hn : j + 1 - i ≤ n) :
    i ≤ scanUp p j n i
    ∧ (i ≤ j + 1 → scanUp p j n i ≤ j + 1)
    ∧ (∀ k, i ≤ k → k < scanUp p j n i → p k = true)
    ∧ (scanUp p j n i ≤ j → p (scanUp p j n i) = false) := by
  induction n generalizing i with
  | zero =>
    simp only [scanUp]
    exact ⟨Nat.le_refl i, fun h => h, fun k h1 h2 => by omega, fun h => by omega⟩
  | succ n ih =>
    rw [scanUp]
    split
    · rename_i h
      obtain ⟨h1, h2, h3, h4⟩ := ih (i + 1) (by omega)
      refine ⟨by omega, fun _ => h2 (by omega), ?_, h4⟩
      intro k hk1 hk2
      by_cases hki : k = i
      · rw [hki]; exact h.2
      · exact h3 k (by omega) hk2
    · rename_i h
      refine ⟨Nat.le_refl i, fun h => h, fun k h1 h2 => by omega, ?_⟩
      intro hle
      by_cases hp : p i = true
      · exact absurd ⟨hle, hp⟩ h
      · simpa using hp

theorem scanDown_spec (p : Nat → Bool) (i n j : Nat) (hn : j + 1 - i ≤ n) (hi : 1 ≤ i) :
    scanDown p i n j ≤ j
    ∧ (i ≤ j + 1 → i ≤ scanDown p i n j + 1)
    ∧ (∀ k, scanDown p i n j < k → k ≤ j → p k = true)
    ∧ (i ≤ scanDown p i n j → p (scanDown p i n j) = false) := by
  induction n generalizing j with
  | zero =>
    simp only [scanDown]
    exact ⟨Nat.le_refl j, fun h => h, fun k h1 h2 => by omega, fun h => by omega⟩
  | succ n ih =>
    rw [scanDown]
    split
    · rename_i h
      obtain ⟨h1, h2, h3, h4⟩ := ih (j - 1) (by omega)
      refine ⟨by omega, fun _ => h2 (by omega), ?_, h4⟩
      intro k hk1 hk2
      by_cases hkj : k = j
      · rw [hkj]; exact h.2
      · exact h3 k hk1 (by omega)
    · rename_i h
      refine ⟨Nat.le_refl j, fun h => h, fun k h1 h2 => by omega, ?_⟩
      intro hle
      by_cases hp : p j = true
      · exact absurd ⟨hle, hp⟩ h
      · simpa using hp

/-! ## Insertion sort -/

/-- Invariant of the inner loop of the insertion sort: apart from position `j`
the range `[a, i]` is in order, and the element at `j` is no greater than the
ones after it. -/
theorem insertionSortInner_sorted {α : Type} {cmp : α → α → Int} {key : α → Int}
    (hk : KeyOrder cmp key) (a i j : Nat) (d : List α) (hi : i < d.length) (hj : j ≤ i)
    (haj : a ≤ j)
    (h1 : ∀ x y, a ≤ x → x ≤ y → y ≤ i → x ≠ j → y ≠ j → kAt key d x ≤ kAt key d y)
    (h2 : ∀ y, j < y → y ≤ i → kAt key d j ≤ kAt key d y) :
    SortedOn key (insertionSortInner cmp a j d) a (i + 1) := by
  induction j generalizing d with
  | zero =>
    rw [insertionSortInner]
    intro x y hx hxy hy
    by_cases hx0 : x = 0
    · by_cases hy0 : y = 0
      · rw [hx0, hy0]
      · rw [hx0]; exact h2 y (by omega) (by omega)
    · exact h1 x y hx hxy (by omega) hx0 (by omega)
  | succ j ih =>
    rw [insertionSortInner]
    split
    · rename_i hc
      have hlt : kAt key d (j + 1) < kAt key d j :=
        (lessAt_iff hk d (j + 1) j (by omega) (by omega)).mp hc.2
      have hs : ∀ k, kAt key (swap d (j + 1) j) k
          = if k = j then kAt key d (j + 1) else if k = j + 1 then kAt key d j
            else kAt key d k :=
        fun k => kAt_swap key d (j + 1) j k (by omega) (by omega)
      apply ih (swap d (j + 1) j) (by rw [swap_length]; exact hi) (by omega) (by omega)
      · intro x y hx hxy hy hxj hyj
        rw [hs x, hs y, if_neg hxj, if_neg hyj]
        by_cases hx1 : x = j + 1
        · by_cases hy1 : y = j + 1
          · rw [if_pos hx1, if_pos hy1]
          · rw [if_pos hx1, if_neg hy1]
            exact h1 j y (by omega) (by omega) hy (by omega) hy1
        · by_cases hy1 : y = j + 1
          · rw [if_neg hx1, if_pos hy1]
            by_cases hxj2 : x = j
            · omega
            · exact h1 x j hx (by omega) (by omega) hx1 (by omega)
          · rw [if_neg hx1, if_neg hy1]
            exact h1 x y hx hxy hy hx1 hy1
      · intro y hy1 hy2
        rw [hs j, hs y, if_pos rfl, if_neg (by omega)]
        by_cases hy3 : y = j + 1
        · rw [if_pos hy3]; omega
        · rw [if_neg hy3]; exact h2 y (by omega) hy2
    · rename_i hc
      intro x y hx hxy hy
      by_cases hxj : x = j + 1
      · by_cases hyj : y = j + 1
        · rw [hxj, hyj]
        · rw [hxj]; exact h2 y (by omega) (by omega)
      · by_cases hyj : y = j + 1
        · have hnl : ¬ (lessAt cmp d (j + 1) j = true) := fun h => hc ⟨by omega, h⟩
          have hle : kAt key d j ≤ kAt key d (j + 1) := by
            have := (lessAt_iff hk d (j + 1) j (by omega) (by omega)).not.mp hnl
            omega
          have := h1 x j hx (by omega) (by omega) hxj (by omega)
          rw [hyj]; omega
        · exact h1 x y hx hxy (by omega) hxj hyj

theorem SortedOn.of_shuffle_outside {α : Type} {key : α → Int} {d d1 : List α} {a b lo hi : Nat}
    (h : SortedOn key d a b) (hs : Shuffle d d1 lo hi) (hout : b ≤ lo ∨ hi ≤ a) :
    SortedOn key d1 a b := by
  intro i j hi1 hij hj
  rw [hs.kAt_outside key i (by omega), hs.kAt_outside key j (by omega)]
  exact h i j hi1 hij hj

theorem insertionSort_fold_sorted {α : Type} {cmp : α → α → Int} {key : α → Int}
    (hk : KeyOrder cmp key) (a n s : Nat) (d : List α) (has : a ≤ s) (hlen : s + n ≤ d.length)
    (hs : SortedOn key d a s) :
    SortedOn key ((List.range' s n).foldl (fun d i => insertionSortInner cmp a i d) d) a
      (s + n) := by
  induction n generalizing s d with
  | zero => simpa using hs
  | succ n ih =>
    rw [List.range'_succ, List.foldl_cons]
    have hstep : SortedOn key (insertionSortInner cmp a s d) a (s + 1) :=
      insertionSortInner_sorted hk a s s d (by omega) (Nat.le_refl s) has
        (fun x y hx hxy hy hxs hys => hs x y hx hxy (by omega))
        (fun y h1 h2 => by omega)
    have hlen1 : (insertionSortInner cmp a s d).length = d.length :=
      (insertionSortInner_shuffle cmp a (s + 1) s d (by omega)).1
    have := ih (s + 1) (insertionSortInner cmp a s d) (by omega) (by omega) hstep
    rw [show s + (n + 1) = s + 1 + n by omega]
    exact this

theorem insertionSortCmpFunc_sorted {α : Type} {cmp : α → α → Int} {key : α → Int}
    (hk : KeyOrder cmp key) (d : List α) (a b : Nat) (hb : b ≤ d.length) :
    SortedOn key (insertionSortCmpFunc cmp d a b) a b := by
  unfold insertionSortCmpFunc
  by_cases h : a + 1 ≤ b
  · have := insertionSort_fold_sorted hk a (b - (a + 1)) (a + 1) d (by omega) (by omega)
      (fun i j h1 h2 h3 => by
        have : i = j := by omega
        rw [this])
    rw [show a + 1 + (b - (a + 1)) = b by omega] at this
    exact this
  · intro i j h1 h2 h3
    omega

/-! ## Stability of the insertion sort -/

theorem swap_cons_succ {α : Type} (e : α) (t : List α) (i j : Nat) :
    swap (e :: t) (i + 1) (j + 1) = e :: swap t i j := by
  unfold swap
  simp only [List.getElem?_cons_succ]
  split <;> simp_all

theorem filter_swap_adjacent {α : Type} (p : α → Bool) (d : List α) (j : Nat) (x y : α)
    (hx : d[j]? = some x) (hy : d[j + 1]? = some y) (hp : ¬(p x = true ∧ p y = true)) :
    (swap d (j + 1) j).filter p = d.filter p := by
  induction d generalizing j with
  | nil => simp at hx
  | cons e t ih =>
    cases j with
    | zero =>
      cases t with
      | nil => simp at hy
      | cons e1 t =>
        simp only [List.getElem?_cons_zero, Option.some.injEq, zero_add,
          List.getElem?_cons_succ] at hx hy
        subst hx hy
        simp only [swap, zero_add, List.getElem?_cons_succ, List.getElem?_cons_zero,
          List.set_cons_succ, List.set_cons_zero]
        simp only [List.filter_cons]
        cases h1 : p e <;> cases h2 : p e1 <;> simp_all
    | succ j =>
      rw [swap_cons_succ]
      simp only [List.getElem?_cons_succ] at hx hy
      simp only [List.filter_cons, ih j hx hy]

theorem kAt_eq_getElem {α : Type} (key : α → Int) (d : List α) (i : Nat) (h : i < d.length) :
    kAt key d i = key (d.get ⟨i, h⟩) := by
  unfold kAt
  rw [List.getElem?_eq_getElem h]
  rfl

theorem insertionSortInner_stable {α : Type} {cmp : α → α → Int} {key : α → Int}
    (hk : KeyOrder cmp key) (t : Int) (a j : Nat) (d : List α) (hj : j < d.length) :
    (insertionSortInner cmp a j d).filter (fun x => decide (key x = t))
      = d.filter (fun x => decide (key x = t)) := by
  induction j generalizing d with
  | zero => rfl
  | succ j ih =>
    rw [insertionSortInner]
    split
    · rename_i hc
      rw [ih _ (by rw [swap_length]; omega)]
      have hlt : kAt key d (j + 1) < kAt key d j :=
        (lessAt_iff hk d (j + 1) j (by omega) (by omega)).mp hc.2
      apply filter_swap_adjacent _ d j (d.get ⟨j, by omega⟩) (d.get ⟨j + 1, hj⟩)
        (List.getElem?_eq_getElem (by omega)) (List.getElem?_eq_getElem hj)
      rw [kAt_eq_getElem key d (j + 1) hj, kAt_eq_getElem key d j (by omega)] at hlt
      simp only [decide_eq_true_eq]
      omega
    · rfl

theorem insertionSortCmpFunc_stable {α : Type} {cmp : α → α → Int} {key : α → Int}
    (hk : KeyOrder cmp key) (t : Int) (d : List α) (a b : Nat) (hb : b ≤ d.length) :
    (insertionSortCmpFunc cmp d a b).filter (fun x => decide (key x = t))
      = d.filter (fun x => decide (key x = t)) := by
  unfold insertionSortCmpFunc
  have gen : ∀ (n s : Nat) (d : List α), s + n ≤ d.length →
      ((List.range' s n).foldl (fun d i => insertionSortInner cmp a i d) d).filter
          (fun x => decide (key x = t))
        = d.filter (fun x => decide (key x = t)) := by
    intro n
    induction n with
    | zero => intro s d _; rfl
    | succ n ih =>
      intro s d hlen
      rw [List.range'_succ, List.foldl_cons]
      have hlen1 : (insertionSortInner cmp a s d).length = d.length :=
        (insertionSortInner_shuffle cmp a (s + 1) s d (by omega)).1
      rw [ih (s + 1) _ (by omega), insertionSortInner_stable hk t a s d (by omega)]
  by_cases h : a + 1 ≤ b
  · exact gen _ _ d (by omega)
  · rw [show b - (a + 1) = 0 by omega]
    rfl

/-! ## Partition -/

theorem partitionLoop_spec {α : Type} {cmp : α → α → Int} {key : α → Int}
    (hk : KeyOrder cmp key) (a b n : Nat) (d : List α) (i j : Nat)
    (hb : b ≤ d.length) (hi : a + 1 ≤ i) (hj : j + 1 ≤ b) (hij : i ≤ j + 1)
    (hn : j + 1 - i < n)
    (hlo : ∀ k, a + 1 ≤ k → k < i → kAt key d k < kAt key d a)
    (hhi : ∀ k, j < k → k < b → kAt key d a ≤ kAt key d k) :
    Shuffle d (partitionLoop cmp a n d i j).1 (a + 1) b
    ∧ a ≤ (partitionLoop cmp a n d i j).2
    ∧ (partitionLoop cmp a n d i j).2 < b
    ∧ (∀ k, a + 1 ≤ k → k ≤ (partitionLoop cmp a n d i j).2 →
        kAt key (partitionLoop cmp a n d i j).1 k < kAt key d a)
    ∧ (∀ k, (partitionLoop cmp a n d i j).2 < k → k < b →
        kAt key d a ≤ kAt key (partitionLoop cmp a n d i j).1 k) := by
  induction n generalizing d i j with
  | zero => omega
  | succ n ih =>
    rw [partitionLoop]
    have hu := scanUp_spec (fun k => lessAt cmp d k a) j (j + 1 - i) i (Nat.le_refl _)
    generalize scanUp (fun k => lessAt cmp d k a) j (j + 1 - i) i = i1 at hu ⊢
    obtain ⟨u1, u2, u3, u4⟩ := hu
    have hd := scanDown_spec (fun k => !lessAt cmp d k a) i1 (j + 1 - i1) j (Nat.le_refl _)
      (by omega)
    generalize scanDown (fun k => !lessAt cmp d k a) i1 (j + 1 - i1) j = j1 at hd ⊢
    obtain ⟨v1, v2, v3, v4⟩ := hd
    have hlo1 : ∀ k, a + 1 ≤ k → k < i1 → kAt key d k < kAt key d a := by
      intro k h1 h2
      by_cases hki : k < i
      · exact hlo k h1 hki
      · exact (lessAt_iff hk d k a (by omega) (by omega)).mp (u3 k (by omega) h2)
    have hhi1 : ∀ k, j1 < k → k < b → kAt key d a ≤ kAt key d k := by
      intro k h1 h2
      by_cases hkj : j < k
      · exact hhi k hkj h2
      · have := v3 k h1 (by omega)
        simp only [Bool.not_eq_true'] at this
        exact (lessAt_false_iff hk d k a (by omega) (by omega)).mp this
    split
    · rename_i hlt
      exact ⟨Shuffle.refl _ _ _, by omega, by omega,
        fun k h1 h2 => hlo1 k h1 (by omega), fun k h1 h2 => hhi1 k h1 h2⟩
    · rename_i hge
      have hi1j : i1 ≤ j := by omega
      have w1 : kAt key d a ≤ kAt key d i1 :=
        (lessAt_false_iff hk d i1 a (by omega) (by omega)).mp (u4 hi1j)
      have w2 : kAt key d j1 < kAt key d a := by
        have := v4 (by omega)
        simp only [Bool.not_eq_false'] at this
        exact (lessAt_iff hk d j1 a (by omega) (by omega)).mp this
      have hne : i1 ≠ j1 := by
        intro h; rw [h] at w1; omega
      have hs : ∀ k, kAt key (swap d i1 j1) k
          = if k = j1 then kAt key d i1 else if k = i1 then kAt key d j1 else kAt key d k :=
        fun k => kAt_swap key d i1 j1 k (by omega) (by omega)
      have hsa : kAt key (swap d i1 j1) a = kAt key d a := by
        rw [hs a, if_neg (by omega), if_neg (by omega)]
      obtain ⟨r1, r2, r3, r4, r5⟩ := ih (swap d i1 j1) (i1 + 1) (j1 - 1)
        (by rw [swap_length]; exact hb) (by omega) (by omega) (by omega) (by omega)
        (by
          intro k h1 h2
          rw [hsa, hs k, if_neg (by omega)]
          by_cases hk1 : k = i1
          · rw [if_pos hk1]; exact w2
          · rw [if_neg hk1]; exact hlo1 k h1 (by omega))
        (by
          intro k h1 h2
          rw [hsa, hs k]
          by_cases hk1 : k = j1
          · rw [if_pos hk1]; exact w1
          · rw [if_neg hk1, if_neg (by omega)]; exact hhi1 k (by omega) h2)
      rw [hsa] at r4 r5
      exact ⟨(Shuffle.swap d ⟨by omega, by omega⟩ ⟨by omega, by omega⟩).trans r1,
        r2, r3, r4, r5⟩

/-- The last exchange of a partition: the pivot moves from `a` to its place. -/
theorem partition_final_swap {α : Type} (key : α → Int) (d : List α) (a b m : Nat)
    (hb : b ≤ d.length) (hm : a ≤ m ∧ m < b)
    (hlo : ∀ k, a + 1 ≤ k → k ≤ m → kAt key d k < kAt key d a)
    (hhi : ∀ k, m < k → k < b → kAt key d a ≤ kAt key d k) :
    Shuffle d (swap d m a) a b
    ∧ (∀ k, a ≤ k → k < m → kAt key (swap d m a) k < kAt key (swap d m a) m)
    ∧ (∀ k, m < k → k < b → kAt key (swap d m a) m ≤ kAt key (swap d m a) k) := by
  have hs : ∀ k, kAt key (swap d m a) k
      = if k = a then kAt key d m else if k = m then kAt key d a else kAt key d k :=
    fun k => kAt_swap key d m a k (by omega) (by omega)
  have hmid : kAt key (swap d m a) m = kAt key d a := by
    rw [hs m]
    by_cases h : m = a
    · rw [if_pos h, h]
    · rw [if_neg h, if_pos rfl]
  refine ⟨Shuffle.swap d ⟨hm.1, hm.2⟩ ⟨Nat.le_refl a, by omega⟩, ?_, ?_⟩
  · intro k h1 h2
    rw [hmid, hs k]
    by_cases hka : k = a
    · rw [if_pos hka]; exact hlo m (by omega) (Nat.le_refl m)
    · rw [if_neg hka, if_neg (by omega)]; exact hlo k (by omega) (by omega)
  · intro k h1 h2
    rw [hmid, hs k, if_neg (by omega), if_neg (by omega)]
    exact hhi k h1 h2

theorem partitionCmpFunc_spec {α : Type} {cmp : α → α → Int} {key : α → Int}
    (hk : KeyOrder cmp key) (d : List α) (a b pivot : Nat) (hb : b ≤ d.length)
    (hp : a ≤ pivot ∧ pivot < b) :
    Shuffle d (partitionCmpFunc cmp d a b pivot).1 a b
    ∧ a ≤ (partitionCmpFunc cmp d a b pivot).2.1
    ∧ (partitionCmpFunc cmp d a b pivot).2.1 < b
    ∧ (∀ k, a ≤ k → k < (partitionCmpFunc cmp d a b pivot).2.1 →
        kAt key (partitionCmpFunc cmp d a b pivot).1 k
          < kAt key (partitionCmpFunc cmp d a b pivot).1 (partitionCmpFunc cmp d a b pivot).2.1)
    ∧ (∀ k, (partitionCmpFunc cmp d a b pivot).2.1 < k → k < b →
        kAt key (partitionCmpFunc cmp d a b pivot).1 (partitionCmpFunc cmp d a b pivot).2.1
          ≤ kAt key (partitionCmpFunc cmp d a b pivot).1 k) := by
  unfold partitionCmpFunc
  have hs0 : Shuffle d (swap d a pivot) a b := Shuffle.swap d ⟨Nat.le_refl a, by omega⟩ hp
  generalize swap d a pivot = d0 at hs0 ⊢
  have hb0 : b ≤ d0.length := by rw [hs0.1]; exact hb
  dsimp only
  have hu := scanUp_spec (fun k => lessAt cmp d0 k a) (b - 1) (b - 1 + 1 - (a + 1)) (a + 1)
    (Nat.le_refl _)
  generalize scanUp (fun k => lessAt cmp d0 k a) (b - 1) (b - 1 + 1 - (a + 1)) (a + 1) = i0
    at hu ⊢
  obtain ⟨u1, u2, u3, u4⟩ := hu
  have hd := scanDown_spec (fun k => !lessAt cmp d0 k a) i0 (b - 1 + 1 - i0) (b - 1)
    (Nat.le_refl _) (by omega)
  generalize scanDown (fun k => !lessAt cmp d0 k a) i0 (b - 1 + 1 - i0) (b - 1) = j0 at hd ⊢
  obtain ⟨v1, v2, v3, v4⟩ := hd
  have hlo1 : ∀ k, a + 1 ≤ k → k < i0 → kAt key d0 k < kAt key d0 a := by
    intro k h1 h2
    exact (lessAt_iff hk d0 k a (by omega) (by omega)).mp (u3 k (by omega) h2)
  have hhi1 : ∀ k, j0 < k → k < b → kAt key d0 a ≤ kAt key d0 k := by
    intro k h1 h2
    have := v3 k h1 (by omega)
    simp only [Bool.not_eq_true'] at this
    exact (lessAt_false_iff hk d0 k a (by omega) (by omega)).mp this
  split
  · rename_i hlt
    dsimp only
    obtain ⟨f1, f2, f3⟩ := partition_final_swap key d0 a b j0 hb0 ⟨by omega, by omega⟩
      (fun k h1 h2 => hlo1 k h1 (by omega)) hhi1
    exact ⟨hs0.trans f1, by omega, by omega, f2, f3⟩
  · rename_i hge
    dsimp only
    have w1 : kAt key d0 a ≤ kAt key d0 i0 :=
      (lessAt_false_iff hk d0 i0 a (by omega) (by omega)).mp (u4 (by omega))
    have w2 : kAt key d0 j0 < kAt key d0 a := by
      have := v4 (by omega)
      simp only [Bool.not_eq_false'] at this
      exact (lessAt_iff hk d0 j0 a (by omega) (by omega)).mp this
    have hne : i0 ≠ j0 := by
      intro h; rw [h] at w1; omega
    have hs : ∀ k, kAt key (swap d0 i0 j0) k
        = if k = j0 then kAt key d0 i0 else if k = i0 then kAt key d0 j0 else kAt key d0 k :=
      fun k => kAt_swap key d0 i0 j0 k (by omega) (by omega)
    have hsa : kAt key (swap d0 i0 j0) a = kAt key d0 a := by
      rw [hs a, if_neg (by omega), if_neg (by omega)]
    have hs1 : Shuffle d0 (swap d0 i0 j0) a b :=
      Shuffle.swap d0 ⟨by omega, by omega⟩ ⟨by omega, by omega⟩
    obtain ⟨r1, r2, r3, r4, r5⟩ := partitionLoop_spec hk a b (b - a) (swap d0 i0 j0)
      (i0 + 1) (j0 - 1)
      (by rw [swap_length]; exact hb0) (by omega) (by omega) (by omega) (by omega)
      (by
        intro k h1 h2
        rw [hsa, hs k, if_neg (by omega)]
        by_cases hk1 : k = i0
        · rw [if_pos hk1]; exact w2
        · rw [if_neg hk1]; exact hlo1 k h1 (by omega))
      (by
        intro k h1 h2
        rw [hsa, hs k]
        by_cases hk1 : k = j0
        · rw [if_pos hk1]; exact w1
        · rw [if_neg hk1, if_neg (by omega)]; exact hhi1 k (by omega) h2)
    generalize partitionLoop cmp a (b - a) (swap d0 i0 j0) (i0 + 1) (j0 - 1) = r
      at r1 r2 r3 r4 r5 ⊢
    have hra : kAt key r.1 a = kAt key d0 a := by
      rw [r1.kAt_outside key a (by omega), hsa]
    obtain ⟨f1, f2, f3⟩ := partition_final_swap key r.1 a b r.2
      (by rw [r1.1, swap_length]; exact hb0) ⟨r2, r3⟩
      (fun k h1 h2 => by rw [hra, ← hsa]; exact r4 k h1 h2)
      (fun k h1 h2 => by rw [hra, ← hsa]; exact r5 k h1 h2)
    exact ⟨hs0.trans (hs1.trans ((r1.mono (by omega) (Nat.le_refl b)).trans f1)),
      r2, r3, f2, f3⟩

/-! ## Partition of a range without smaller elements -/

theorem partitionEqualLoop_spec {α : Type} {cmp : α → α → Int} {key : α → Int}
    (hk : KeyOrder cmp key) (a b n : Nat) (d : List α) (i j : Nat)
    (hb : b ≤ d.length) (hi : a + 1 ≤ i) (hj : j + 1 ≤ b) (hij : i ≤ j + 1)
    (hn : j + 1 - i < n)
    (hlo : ∀ k, a + 1 ≤ k → k < i → kAt key d k ≤ kAt key d a)
    (hhi : ∀ k, j < k → k < b → kAt key d a < kAt key d k) :
    Shuffle d (partitionEqualLoop cmp a n d i j).1 (a + 1) b
    ∧ a + 1 ≤ (partitionEqualLoop cmp a n d i j).2
    ∧ (partitionEqualLoop cmp a n d i j).2 ≤ b
    ∧ (∀ k, a + 1 ≤ k → k < (partitionEqualLoop cmp a n d i j).2 →
        kAt key (partitionEqualLoop cmp a n d i j).1 k ≤ kAt key d a)
    ∧ (∀ k, (partitionEqualLoop cmp a n d i j).2 ≤ k → k < b →
        kAt key d a < kAt key (partitionEqualLoop cmp a n d i j).1 k) := by
  induction n generalizing d i j with
  | zero => omega
  | succ n ih =>
    rw [partitionEqualLoop]
    have hu := scanUp_spec (fun k => !lessAt cmp d a k) j (j + 1 - i) i (Nat.le_refl _)
    generalize scanUp (fun k => !lessAt cmp d a k) j (j + 1 - i) i = i1 at hu ⊢
    obtain ⟨u1, u2, u3, u4⟩ := hu
    have hd := scanDown_spec (fun k => lessAt cmp d a k) i1 (j + 1 - i1) j (Nat.le_refl _)
      (by omega)
    generalize scanDown (fun k => lessAt cmp d a k) i1 (j + 1 - i1) j = j1 at hd ⊢
    obtain ⟨v1, v2, v3, v4⟩ := hd
    have hlo1 : ∀ k, a + 1 ≤ k → k < i1 → kAt key d k ≤ kAt key d a := by
      intro k h1 h2
      by_cases hki : k < i
      · exact hlo k h1 hki
      · have := u3 k (by omega) h2
        simp only [Bool.not_eq_true'] at this
        exact (lessAt_false_iff hk d a k (by omega) (by omega)).mp this
    have hhi1 : ∀ k, j1 < k → k < b → kAt key d a < kAt key d k := by
      intro k h1 h2
      by_cases hkj : j < k
      · exact hhi k hkj h2
      · exact (lessAt_iff hk d a k (by omega) (by omega)).mp (v3 k h1 (by omega))
    split
    · rename_i hlt
      exact ⟨Shuffle.refl _ _ _, by omega, by omega,
        fun k h1 h2 => hlo1 k h1 h2, fun k h1 h2 => hhi1 k (by omega) h2⟩
    · rename_i hge
      have hi1j : i1 ≤ j := by omega
      have w1 : kAt key d a < kAt key d i1 := by
        have := u4 hi1j
        simp only [Bool.not_eq_false'] at this
        exact (lessAt_iff hk d a i1 (by omega) (by omega)).mp this
      have w2 : kAt key d j1 ≤ kAt key d a :=
        (lessAt_false_iff hk d a j1 (by omega) (by omega)).mp (v4 (by omega))
      have hne : i1 ≠ j1 := by
        intro h; rw [h] at w1; omega
      have hs : ∀ k, kAt key (swap d i1 j1) k
          = if k = j1 then kAt key d i1 else if k = i1 then kAt key d j1 else kAt key d k :=
        fun k => kAt_swap key d i1 j1 k (by omega) (by omega)
      have hsa : kAt key (swap d i1 j1) a = kAt key d a := by
        rw [hs a, if_neg (by omega), if_neg (by omega)]
      obtain ⟨r1, r2, r3, r4, r5⟩ := ih (swap d i1 j1) (i1 + 1) (j1 - 1)
        (by rw [swap_length]; exact hb) (by omega) (by omega) (by omega) (by omega)
        (by
          intro k h1 h2
          rw [hsa, hs k, if_neg (by omega)]
          by_cases hk1 : k = i1
          · rw [if_pos hk1]; exact w2
          · rw [if_neg hk1]; exact hlo1 k h1 (by omega))
        (by
          intro k h1 h2
          rw [hsa, hs k]
          by_cases hk1 : k = j1
          · rw [if_pos hk1]; exact w1
          · rw [if_neg hk1, if_neg (by omega)]; exact hhi1 k (by omega) h2)
      rw [hsa] at r4 r5
      exact ⟨(Shuffle.swap d ⟨by omega, by omega⟩ ⟨by omega, by omega⟩).trans r1,
        r2, r3, r4, r5⟩

theorem partitionEqualCmpFunc_spec {α : Type} {cmp : α → α → Int} {key : α → Int}
    (hk : KeyOrder cmp key) (d : List α) (a b pivot : Nat) (hb : b ≤ d.length)
    (hp : a ≤ pivot ∧ pivot < b)
    (hmin : ∀ k, a ≤ k → k < b → kAt key d pivot ≤ kAt key d k) :
    Shuffle d (partitionEqualCmpFunc cmp d a b pivot).1 a b
    ∧ a + 1 ≤ (partitionEqualCmpFunc cmp d a b pivot).2
    ∧ (partitionEqualCmpFunc cmp d a b pivot).2 ≤ b
    ∧ (∀ k, a ≤ k → k < (partitionEqualCmpFunc cmp d a b pivot).2 →
        kAt key (partitionEqualCmpFunc cmp d a b pivot).1 k = kAt key d pivot)
    ∧ (∀ k, (partitionEqualCmpFunc cmp d a b pivot).2 ≤ k → k < b →
        kAt key d pivot < kAt key (partitionEqualCmpFunc cmp d a b pivot).1 k) := by
  unfold partitionEqualCmpFunc
  have hs0 : Shuffle d (swap d a pivot) a b := Shuffle.swap d ⟨Nat.le_refl a, by omega⟩ hp
  have hpa : kAt key (swap d a pivot) a = kAt key d pivot := by
    rw [kAt_swap key d a pivot a (by omega) (by omega)]
    by_cases h : a = pivot
    · rw [if_pos h, h]
    · rw [if_neg h, if_pos rfl]
  generalize swap d a pivot = d0 at hs0 hpa ⊢
  have hb0 : b ≤ d0.length := by rw [hs0.1]; exact hb
  have hmin0 : ∀ k, a ≤ k → k < b → kAt key d pivot ≤ kAt key d0 k :=
    hs0.forall_range key (fun v => kAt key d pivot ≤ v) hmin
  obtain ⟨r1, r2, r3, r4, r5⟩ := partitionEqualLoop_spec hk a b (b - a) d0 (a + 1) (b - 1)
    hb0 (Nat.le_refl _) (by omega) (by omega) (by omega) (fun k h1 h2 => by omega)
    (fun k h1 h2 => by omega)
  generalize partitionEqualLoop cmp a (b - a) d0 (a + 1) (b - 1) = r at r1 r2 r3 r4 r5 ⊢
  have hra : kAt key r.1 a = kAt key d pivot := by
    rw [r1.kAt_outside key a (by omega), hpa]
  have hminr : ∀ k, a ≤ k → k < b → kAt key d pivot ≤ kAt key r.1 k :=
    (r1.mono (Nat.le_succ a) (Nat.le_refl b)).forall_range key
      (fun v => kAt key d pivot ≤ v) hmin0
  rw [hpa] at r4 r5
  refine ⟨hs0.trans (r1.mono (by omega) (Nat.le_refl b)), r2, r3, ?_, r5⟩
  intro k h1 h2
  by_cases hka : k = a
  · rw [hka, hra]
  · have := r4 k (by omega) h2
    have := hminr k h1 (by omega)
    omega

/-! ## Partial insertion sort -/

theorem LowerBounded.of_shuffle {α : Type} {key : α → Int} {d d1 : List α} {a b : Nat}
    (h : LowerBounded key d a b) (hs : Shuffle d d1 a b) : LowerBounded key d1 a b := by
  intro ha
  rw [hs.kAt_outside key (a - 1) (by omega)]
  exact hs.forall_range key (fun v => kAt key d (a - 1) ≤ v) (h ha)

theorem shiftLeft_eq {α : Type} {cmp : α → α → Int} {key : α → Int} (hk : KeyOrder cmp key)
    (a b j : Nat) (d : List α) (hb : b ≤ d.length) (hj : a ≤ j ∧ j < b)
    (hlb : LowerBounded key d a b) :
    shiftLeft cmp j d = insertionSortInner cmp a j d := by
  induction j generalizing d with
  | zero => rfl
  | succ j ih =>
    rw [shiftLeft, insertionSortInner]
    by_cases haj : a < j + 1
    · by_cases hl : lessAt cmp d (j + 1) j = true
      · rw [if_pos hl, if_pos ⟨haj, hl⟩]
        exact ih _ (by rw [swap_length]; exact hb) ⟨by omega, by omega⟩
          (hlb.of_shuffle (Shuffle.swap d ⟨by omega, by omega⟩ ⟨by omega, by omega⟩))
      · rw [if_neg hl, if_neg (fun h => hl h.2)]
    · have ha : a = j + 1 := by omega
      have hle := hlb (by omega) a (Nat.le_refl a) (by omega)
      have hl : lessAt cmp d (j + 1) j = false := by
        rw [lessAt_false_iff hk d (j + 1) j (by omega) (by omega)]
        rw [ha] at hle
        simpa using hle
      rw [hl]
      simp

theorem shiftRight_shuffle {α : Type} (cmp : α → α → Int) (b n j : Nat) (d : List α)
    (hj : 1 ≤ j) : Shuffle d (shiftRight cmp b n j d) (j - 1) b := by
  induction n generalizing j d with
  | zero => exact Shuffle.refl _ _ _
  | succ n ih =>
    rw [shiftRight]
    split
    · rename_i h
      exact (Shuffle.swap d ⟨by omega, by omega⟩ ⟨by omega, by omega⟩).trans
        ((ih (j + 1) _ (by omega)).mono (by omega) (Nat.le_refl b))
    · exact Shuffle.refl _ _ _

/-- A sorted prefix grows over positions that are in order with their
predecessor. -/
theorem SortedOn.extend {α : Type} {key : α → Int} {d : List α} {a i i1 : Nat}
    (hs : SortedOn key d a i)
    (hadj : ∀ k, i ≤ k → k < i1 → kAt key d (k - 1) ≤ kAt key d k) :
    SortedOn key d a i1 := by
  intro x y hx hxy hy
  induction y with
  | zero =>
    have : x = 0 := by omega
    rw [this]
  | succ y ih =>
    by_cases hyi : y + 1 < i
    · exact hs x (y + 1) hx hxy hyi
    · by_cases hxe : x = y + 1
      · rw [hxe]
      · have h1 := ih (by omega) (by omega)
        have h2 := hadj (y + 1) (by omega) hy
        simp only [Nat.add_sub_cancel] at h2
        omega

theorem insertionSteps_spec {α : Type} {cmp : α → α → Int} {key : α → Int}
    (hk : KeyOrder cmp key) (a b s i : Nat) (d : List α) (hb : b ≤ d.length)
    (hi : a + 1 ≤ i ∧ i ≤ b) (hlb : LowerBounded key d a b) (hs : SortedOn key d a i) :
    Shuffle d (insertionSteps cmp a b s i d).1 a b
    ∧ ((insertionSteps cmp a b s i d).2 = true →
        SortedOn key (insertionSteps cmp a b s i d).1 a b) := by
  induction s generalizing i d with
  | zero =>
    rw [insertionSteps]
    exact ⟨Shuffle.refl _ _ _, fun h => by simp at h⟩
  | succ s ih =>
    rw [insertionSteps]
    have hu := scanUp_spec (fun k => !lessAt cmp d k (k - 1)) (b - 1) (b - i) i (by omega)
    generalize scanUp (fun k => !lessAt cmp d k (k - 1)) (b - 1) (b - i) i = i1 at hu ⊢
    obtain ⟨u1, u2, u3, u4⟩ := hu
    have hsort1 : SortedOn key d a i1 := by
      apply hs.extend
      intro k h1 h2
      have := u3 k h1 h2
      simp only [Bool.not_eq_true'] at this
      exact (lessAt_false_iff hk d k (k - 1) (by omega) (by omega)).mp this
    split
    · rename_i he
      subst he
      exact ⟨Shuffle.refl _ _ _, fun _ => hsort1⟩
    · rename_i hne
      split
      · exact ⟨Shuffle.refl _ _ _, fun h => by simp at h⟩
      · dsimp only
        have hi1 : i1 < b := by omega
        have sh1 : Shuffle d (swap d i1 (i1 - 1)) a b :=
          Shuffle.swap d ⟨by omega, by omega⟩ ⟨by omega, by omega⟩
        generalize hd1 : swap d i1 (i1 - 1) = d1 at sh1 ⊢
        have hsort_d1 : SortedOn key d1 a (i1 - 1) := by
          intro x y hx hxy hy
          rw [← hd1, kAt_swap key d i1 (i1 - 1) x (by omega) (by omega),
            kAt_swap key d i1 (i1 - 1) y (by omega) (by omega),
            if_neg (by omega), if_neg (by omega), if_neg (by omega), if_neg (by omega)]
          exact hsort1 x y hx hxy (by omega)
        have hb1 : b ≤ d1.length := by rw [sh1.1]; exact hb
        have hlb1 : LowerBounded key d1 a b := hlb.of_shuffle sh1
        have step2 : Shuffle d1 (if 2 ≤ i1 - a then shiftLeft cmp (i1 - 1) d1 else d1) a b
            ∧ SortedOn key (if 2 ≤ i1 - a then shiftLeft cmp (i1 - 1) d1 else d1) a i1 := by
          split
          · rw [shiftLeft_eq hk a b (i1 - 1) d1 hb1 ⟨by omega, by omega⟩ hlb1]
            constructor
            · exact (insertionSortInner_shuffle cmp a i1 (i1 - 1) d1 (by omega)).mono
                (Nat.le_refl a) (by omega)
            · have := insertionSortInner_sorted hk a (i1 - 1) (i1 - 1) d1 (by omega)
                (Nat.le_refl _) (by omega)
                (fun x y hx hxy hy hxn hyn => hsort_d1 x y hx hxy (by omega))
                (fun y h1 h2 => by omega)
              rw [show i1 - 1 + 1 = i1 by omega] at this
              exact this
          · refine ⟨Shuffle.refl _ _ _, ?_⟩
            intro x y hx hxy hy
            have : x = y := by omega
            rw [this]
        generalize (if 2 ≤ i1 - a then shiftLeft cmp (i1 - 1) d1 else d1) = d2 at step2 ⊢
        obtain ⟨sh2, hsort2⟩ := step2
        have step3 : Shuffle d2
            (if 2 ≤ b - i1 then shiftRight cmp b (b - (i1 + 1)) (i1 + 1) d2 else d2) i1 b := by
          split
          · exact shiftRight_shuffle cmp b _ (i1 + 1) d2 (by omega)
          · exact Shuffle.refl _ _ _
        generalize (if 2 ≤ b - i1 then shiftRight cmp b (b - (i1 + 1)) (i1 + 1) d2 else d2) = d3
          at step3 ⊢
        have sh3 : Shuffle d d3 a b :=
          sh1.trans (sh2.trans (step3.mono (by omega) (Nat.le_refl b)))
        obtain ⟨r1, r2⟩ := ih i1 d3 (by rw [sh3.1]; exact hb) ⟨by omega, by omega⟩
          (hlb.of_shuffle sh3) (hsort2.of_shuffle_outside step3 (Or.inl (Nat.le_refl _)))
        exact ⟨sh3.trans r1, r2⟩

theorem partialInsertionSortCmpFunc_spec {α : Type} {cmp : α → α → Int} {key : α → Int}
    (hk : KeyOrder cmp key) (d : List α) (a b : Nat) (hab : a < b) (hb : b ≤ d.length)
    (hlb : LowerBounded key d a b) :
    Shuffle d (partialInsertionSortCmpFunc cmp d a b).1 a b
    ∧ ((partialInsertionSortCmpFunc cmp d a b).2 = true →
        SortedOn key (partialInsertionSortCmpFunc cmp d a b).1 a b) := by
  unfold partialInsertionSortCmpFunc
  apply insertionSteps_spec hk a b 5 (a + 1) d hb ⟨Nat.le_refl _, by omega⟩ hlb
  intro x y hx hxy hy
  have : x = y := by omega
  rw [this]

/-! ## Pattern breaking, range reversal, pivot choice -/

theorem bitsLenAux_le (f n : Nat) (hn : 1 ≤ n) (hf : n ≤ f) : 2 ^ bitsLenAux f n ≤ 2 * n := by
  induction f generalizing n with
  | zero => omega
  | succ f ih =>
    rw [bitsLenAux, if_neg (by omega), pow_succ]
    by_cases h : 1 ≤ n / 2
    · have := ih (n / 2) h (by omega)
      omega
    · have h0 : n / 2 = 0 := by omega
      rw [h0]
      have : bitsLenAux f 0 = 0 := by
        cases f <;> simp [bitsLenAux]
      rw [this]
      omega

theorem nextPowerOfTwo_le (n : Nat) (hn : 1 ≤ n) : nextPowerOfTwo n ≤ 2 * n :=
  bitsLenAux_le n n hn (Nat.le_refl n)

theorem breakPatternsStep_shuffle {α : Type} (next : Nat → Nat) (a b : Nat)
    (st : Nat × List α) (i : Nat) (hl : 8 ≤ b - a) (hi : i ≤ 2) :
    Shuffle st.2
      (breakPatternsStep next a (b - a) (nextPowerOfTwo (b - a)) (a + (b - a) / 4 * 2 - 1)
        st i).2 a b := by
  unfold breakPatternsStep
  dsimp only
  have h1 : next st.1 &&& (nextPowerOfTwo (b - a) - 1) ≤ nextPowerOfTwo (b - a) - 1 :=
    Nat.and_le_right
  have h2 := nextPowerOfTwo_le (b - a) (by omega)
  have h3 : 0 < nextPowerOfTwo (b - a) := Nat.pow_pos (by decide)
  generalize next st.1 &&& (nextPowerOfTwo (b - a) - 1) = other at h1 ⊢
  apply Shuffle.swap
  · constructor <;> omega
  · split <;> constructor <;> omega

theorem breakPatternsCmpFunc_shuffle {α : Type} (next : Nat → Nat) (d : List α) (a b : Nat) :
    Shuffle d (breakPatternsCmpFunc next d a b) a b := by
  unfold breakPatternsCmpFunc
  split
  · rename_i hl
    simp only [List.foldl]
    exact ((breakPatternsStep_shuffle next a b (b - a, d) 0 hl (by omega)).trans
      (breakPatternsStep_shuffle next a b _ 1 hl (by omega))).trans
      (breakPatternsStep_shuffle next a b _ 2 hl (by omega))
  · exact Shuffle.refl _ _ _

theorem reverseRangeLoop_shuffle {α : Type} (a b n : Nat) (d : List α) (i j : Nat)
    (hi : a ≤ i) (hj : j < b) : Shuffle d (reverseRangeLoop n d i j) a b := by
  induction n generalizing d i j with
  | zero => exact Shuffle.refl _ _ _
  | succ n ih =>
    rw [reverseRangeLoop]
    split
    · exact (Shuffle.swap d ⟨by omega, by omega⟩ ⟨by omega, by omega⟩).trans
        (ih _ (i + 1) (j - 1) (by omega) (by omega))
    · exact Shuffle.refl _ _ _

theorem reverseRangeCmpFunc_shuffle {α : Type} (d : List α) (a b : Nat) (hab : a < b) :
    Shuffle d (reverseRangeCmpFunc d a b) a b :=
  reverseRangeLoop_shuffle a b (b - a) d a (b - 1) (Nat.le_refl a) (by omega)

theorem order2CmpFunc_mem {α : Type} (cmp : α → α → Int) (d : List α) (a b swaps : Nat) :
    ((order2CmpFunc cmp d a b swaps).1 = a ∧ (order2CmpFunc cmp d a b swaps).2.1 = b)
    ∨ ((order2CmpFunc cmp d a b swaps).1 = b ∧ (order2CmpFunc cmp d a b swaps).2.1 = a) := by
  unfold order2CmpFunc
  split
  · exact Or.inr ⟨rfl, rfl⟩
  · exact Or.inl ⟨rfl, rfl⟩

theorem medianCmpFunc_mem {α : Type} (cmp : α → α → Int) (d : List α) (a b c swaps : Nat) :
    (medianCmpFunc cmp d a b c swaps).1 = a ∨ (medianCmpFunc cmp d a b c swaps).1 = b
    ∨ (medianCmpFunc cmp d a b c swaps).1 = c := by
  unfold medianCmpFunc
  dsimp only
  have h1 := order2CmpFunc_mem cmp d a b swaps
  generalize order2CmpFunc cmp d a b swaps = r1 at h1 ⊢
  have h2 := order2CmpFunc_mem cmp d r1.2.1 c r1.2.2
  generalize order2CmpFunc cmp d r1.2.1 c r1.2.2 = r2 at h2 ⊢
  have h3 := order2CmpFunc_mem cmp d r1.1 r2.1 r2.2.2
  generalize order2CmpFunc cmp d r1.1 r2.1 r2.2.2 = r3 at h3 ⊢
  omega

theorem choosePivotCmpFunc_mem {α : Type} (cmp : α → α → Int) (d : List α) (a b : Nat)
    (hl : 8 ≤ b - a) :
    a ≤ (choosePivotCmpFunc cmp d a b).1 ∧ (choosePivotCmpFunc cmp d a b).1 < b := by
  unfold choosePivotCmpFunc
  dsimp only
  rw [if_pos hl]
  have key : ∀ r : Nat × Nat, (a ≤ r.1 ∧ r.1 < b) →
      a ≤ (if r.2 = 0 then (r.1, sortedHint.increasingHint)
            else if r.2 = 12 then (r.1, sortedHint.decreasingHint)
            else (r.1, sortedHint.unknownHint)).1
      ∧ (if r.2 = 0 then (r.1, sortedHint.increasingHint)
            else if r.2 = 12 then (r.1, sortedHint.decreasingHint)
            else (r.1, sortedHint.unknownHint)).1 < b := by
    intro r hr
    split
    · exact hr
    · split <;> exact hr
  apply key
  have hq : 2 ≤ (b - a) / 4 := by omega
  split
  · have hi := medianCmpFunc_mem cmp d (a + (b - a) / 4 * 1 - 1) (a + (b - a) / 4 * 1)
      (a + (b - a) / 4 * 1 + 1) 0
    unfold medianAdjacentCmpFunc
    generalize medianCmpFunc cmp d (a + (b - a) / 4 * 1 - 1) (a + (b - a) / 4 * 1)
      (a + (b - a) / 4 * 1 + 1) 0 = ri at hi ⊢
    have hj := medianCmpFunc_mem cmp d (a + (b - a) / 4 * 2 - 1) (a + (b - a) / 4 * 2)
      (a + (b - a) / 4 * 2 + 1) ri.2
    generalize medianCmpFunc cmp d (a + (b - a) / 4 * 2 - 1) (a + (b - a) / 4 * 2)
      (a + (b - a) / 4 * 2 + 1) ri.2 = rj at hj ⊢
    have hk := medianCmpFunc_mem cmp d (a + (b - a) / 4 * 3 - 1) (a + (b - a) / 4 * 3)
      (a + (b - a) / 4 * 3 + 1) rj.2
    generalize medianCmpFunc cmp d (a + (b - a) / 4 * 3 - 1) (a + (b - a) / 4 * 3)
      (a + (b - a) / 4 * 3 + 1) rj.2 = rk at hk ⊢
    have hm := medianCmpFunc_mem cmp d ri.1 rj.1 rk.1 rk.2
    generalize medianCmpFunc cmp d ri.1 rj.1 rk.1 rk.2 = r at hm ⊢
    omega
  · have hm := medianCmpFunc_mem cmp d (a + (b - a) / 4 * 1) (a + (b - a) / 4 * 2)
      (a + (b - a) / 4 * 3) 0
    generalize medianCmpFunc cmp d (a + (b - a) / 4 * 1) (a + (b - a) / 4 * 2)
      (a + (b - a) / 4 * 3) 0 = r at hm ⊢
    omega

/-! ## Heap sort -/

theorem siftDownCmpFunc_heap {α : Type} {cmp : α → α → Int} {key : α → Int}
    (hk : KeyOrder cmp key) (hi first n : Nat) (d : List α) (root lo : Nat)
    (hlen : first + hi ≤ d.length) (hn : hi - root ≤ n) (hlo : lo ≤ root)
    (h1 : ∀ r c, lo ≤ r → r ≠ root → (c = 2 * r + 1 ∨ c = 2 * r + 2) → c < hi →
      kAt key d (first + c) ≤ kAt key d (first + r))
    (h2 : ∀ p c, lo ≤ p → (root = 2 * p + 1 ∨ root = 2 * p + 2) →
      (c = 2 * root + 1 ∨ c = 2 * root + 2) → c < hi →
      kAt key d (first + c) ≤ kAt key d (first + p)) :
    HeapFrom key (siftDownCmpFunc cmp hi first n d root) first hi lo := by
  induction n generalizing d root with
  | zero =>
    rw [siftDownCmpFunc]
    intro r c hr hc hch
    by_cases hrr : r = root
    · omega
    · exact h1 r c hr hrr hc hch
  | succ n ih =>
    rw [siftDownCmpFunc]
    split
    · intro r c hr hc hch
      by_cases hrr : r = root
      · omega
      · exact h1 r c hr hrr hc hch
    · rename_i hroot
      dsimp only
      have hmax : ∀ c, (c = 2 * root + 1 ∨ c = 2 * root + 2) → c < hi →
          kAt key d (first + c) ≤ kAt key d (first +
            (if 2 * root + 1 + 1 < hi ∧
                lessAt cmp d (first + (2 * root + 1)) (first + (2 * root + 1) + 1) = true
             then 2 * root + 1 + 1 else 2 * root + 1)) := by
        intro c hc hch
        split
        · rename_i hcond
          have := (lessAt_iff hk d (first + (2 * root + 1)) (first + (2 * root + 1) + 1)
            (by omega) (by omega)).mp hcond.2
          rcases hc with hc | hc
          · rw [hc]
            rw [show first + (2 * root + 1 + 1) = first + (2 * root + 1) + 1 by omega]
            omega
          · rw [hc]
        · rename_i hcond
          rcases hc with hc | hc
          · rw [hc]
          · have hnl : lessAt cmp d (first + (2 * root + 1)) (first + (2 * root + 1) + 1)
                = false := by
              by_cases hl : lessAt cmp d (first + (2 * root + 1)) (first + (2 * root + 1) + 1)
                  = true
              · exact absurd ⟨by omega, hl⟩ hcond
              · simpa using hl
            have := (lessAt_false_iff hk d (first + (2 * root + 1))
              (first + (2 * root + 1) + 1) (by omega) (by omega)).mp hnl
            rw [hc, show first + (2 * root + 2) = first + (2 * root + 1) + 1 by omega]
            exact this
      have hchild : (if 2 * root + 1 + 1 < hi ∧
            lessAt cmp d (first + (2 * root + 1)) (first + (2 * root + 1) + 1) = true
          then 2 * root + 1 + 1 else 2 * root + 1) < hi
          ∧ ((if 2 * root + 1 + 1 < hi ∧
            lessAt cmp d (first + (2 * root + 1)) (first + (2 * root + 1) + 1) = true
          then 2 * root + 1 + 1 else 2 * root + 1) = 2 * root + 1
            ∨ (if 2 * root + 1 + 1 < hi ∧
            lessAt cmp d (first + (2 * root + 1)) (first + (2 * root + 1) + 1) = true
          then 2 * root + 1 + 1 else 2 * root + 1) = 2 * root + 2) := by
        split <;> omega
      generalize (if 2 * root + 1 + 1 < hi ∧
            lessAt cmp d (first + (2 * root + 1)) (first + (2 * root + 1) + 1) = true
          then 2 * root + 1 + 1 else 2 * root + 1) = child at hmax hchild ⊢
      obtain ⟨hch1, hch2⟩ := hchild
      split
      · rename_i hless
        have hlt : kAt key d (first + root) < kAt key d (first + child) :=
          (lessAt_iff hk d (first + root) (first + child) (by omega) (by omega)).mp hless
        have hs : ∀ x, kAt key (swap d (first + root) (first + child)) (first + x)
            = if x = child then kAt key d (first + root)
              else if x = root then kAt key d (first + child) else kAt key d (first + x) := by
          intro x
          rw [kAt_swap key d (first + root) (first + child) (first + x) (by omega) (by omega)]
          simp only [Nat.add_left_cancel_iff]
        apply ih (swap d (first + root) (first + child)) child
          (by rw [swap_length]; exact hlen) (by omega) (by omega)
        · intro r c hr hrc hc hch
          rw [hs c, hs r, if_neg hrc]
          by_cases hrr : r = root
          · rw [if_pos hrr]
            by_cases hcc : c = child
            · rw [if_pos hcc]; omega
            · rw [if_neg hcc, if_neg (by omega)]
              exact hmax c (by omega) hch
          · rw [if_neg hrr, if_neg (by omega)]
            by_cases hcr : c = root
            · rw [if_pos hcr]
              exact h2 r child hr (by omega) (by omega) hch1
            · rw [if_neg hcr]
              exact h1 r c hr hrr hc hch
        · intro p c hp hpc hc hch
          have hpr : p = root := by omega
          rw [hs c, hs p, if_neg (by omega), if_neg (by omega), if_neg (by omega),
            if_pos hpr]
          exact h1 child c (by omega) (by omega) hc hch
      · rename_i hless
        have hge : kAt key d (first + child) ≤ kAt key d (first + root) := by
          have := (lessAt_iff hk d (first + root) (first + child) (by omega)
            (by omega)).not.mp hless
          omega
        intro r c hr hc hch
        by_cases hrr : r = root
        · have := hmax c (by rw [hrr] at hc; exact hc) hch
          rw [hrr]
          omega
        · exact h1 r c hr hrr hc hch

theorem heapBuild_heap {α : Type} {cmp : α → α → Int} {key : α → Int}
    (hk : KeyOrder cmp key) (hi first k : Nat) (d : List α) (hlen : first + hi ≤ d.length)
    (h : HeapFrom key d first hi k) : HeapFrom key (heapBuild cmp hi first k d) first hi 0 := by
  induction k generalizing d with
  | zero => exact h
  | succ k ih =>
    rw [heapBuild]
    apply ih
    · rw [(siftDownCmpFunc_shuffle cmp hi first hi d k).1]; exact hlen
    · exact siftDownCmpFunc_heap hk hi first hi d k k hlen (by omega) (Nat.le_refl k)
        (fun r c hr hrk hc hch => h r c (by omega) hc hch)
        (fun p c hp hpk hc hch => by omega)

/-- The root of a heap is its greatest element. -/
theorem HeapFrom.le_root {α : Type} {key : α → Int} {d : List α} {first hi : Nat}
    (h : HeapFrom key d first hi 0) (x : Nat) (hx : x < hi) :
    kAt key d (first + x) ≤ kAt key d (first + 0) := by
  induction x using Nat.strong_induction_on with
  | _ x ih =>
    by_cases h0 : x = 0
    · rw [h0]
    · have h1 := h ((x - 1) / 2) x (Nat.zero_le _) (by omega) hx
      have h2 := ih ((x - 1) / 2) (by omega) (by omega)
      omega

theorem heapPop_sorted {α : Type} {cmp : α → α → Int} {key : α → Int}
    (hk : KeyOrder cmp key) (first m k : Nat) (d : List α) (hkm : k ≤ m)
    (hlen : first + m ≤ d.length) (hheap : HeapFrom key d first k 0)
    (hsorted : SortedOn key d (first + k) (first + m))
    (hcross : ∀ x y, x < k → k ≤ y → y < m → kAt key d (first + x) ≤ kAt key d (first + y)) :
    SortedOn key (heapPop cmp first k d) first (first + m) := by
  induction k generalizing d with
  | zero => simpa using hsorted
  | succ k ih =>
    rw [heapPop]
    have hs : ∀ x, kAt key (swap d first (first + k)) (first + x)
        = if x = k then kAt key d (first + 0)
          else if x = 0 then kAt key d (first + k) else kAt key d (first + x) := by
      intro x
      rw [kAt_swap key d first (first + k) (first + x) (by omega) (by omega)]
      simp only [Nat.add_left_cancel_iff, Nat.add_zero]
      by_cases hxk : x = k
      · simp only [hxk, if_true]
      · simp only [hxk, if_false]
        by_cases hx0 : x = 0
        · simp [hx0]
        · have : first + x ≠ first := by omega
          simp only [this, hx0, if_false]
    have hsh := siftDownCmpFunc_shuffle cmp k first k (swap d first (first + k)) 0
    have hl1 : first + m ≤ (swap d first (first + k)).length := by
      rw [swap_length]; exact hlen
    apply ih _ (by omega) (by rw [hsh.1]; exact hl1)
    · apply siftDownCmpFunc_heap hk k first k _ 0 0 (by omega) (by omega) (Nat.le_refl 0)
      · intro r c hr hr0 hc hch
        rw [hs c, hs r, if_neg (by omega), if_neg (by omega), if_neg (by omega),
          if_neg (by omega)]
        exact hheap r c hr hc (by omega)
      · intro p c hp hpc
        omega
    · intro x y hx hxy hy
      rw [hsh.kAt_outside key x (by omega), hsh.kAt_outside key y (by omega)]
      obtain ⟨x1, hx1⟩ : ∃ x1, x = first + x1 := ⟨x - first, by omega⟩
      obtain ⟨y1, hy1⟩ : ∃ y1, y = first + y1 := ⟨y - first, by omega⟩
      subst hx1 hy1
      rw [hs x1, hs y1]
      by_cases hxk : x1 = k
      · rw [if_pos hxk]
        by_cases hyk : y1 = k
        · rw [if_pos hyk]
        · rw [if_neg hyk, if_neg (show ¬y1 = 0 by omega)]
          exact hcross 0 y1 (by omega) (by omega) (by omega)
      · rw [if_neg hxk, if_neg (show ¬x1 = 0 by omega), if_neg (show ¬y1 = k by omega),
          if_neg (show ¬y1 = 0 by omega)]
        exact hsorted (first + x1) (first + y1) (by omega) (by omega) (by omega)
    · intro x y hx hy hym
      rw [hsh.kAt_outside key (first + y) (by omega)]
      have hall : ∀ z, first ≤ z → z < first + k →
          kAt key (swap d first (first + k)) z
            ≤ kAt key (swap d first (first + k)) (first + y) := by
        intro z hz1 hz2
        obtain ⟨z1, hz⟩ : ∃ z1, z = first + z1 := ⟨z - first, by omega⟩
        subst hz
        rw [hs z1, hs y, if_neg (show ¬z1 = k by omega)]
        by_cases hyk : y = k
        · rw [if_pos hyk]
          by_cases hz0 : z1 = 0
          · rw [if_pos hz0]; exact hheap.le_root k (by omega)
          · rw [if_neg hz0]; exact hheap.le_root z1 (by omega)
        · rw [if_neg hyk, if_neg (show ¬y = 0 by omega)]
          by_cases hz0 : z1 = 0
          · rw [if_pos hz0]; exact hcross k y (by omega) (by omega) hym
          · rw [if_neg hz0]; exact hcross z1 y (by omega) (by omega) hym
      exact hsh.forall_range key
        (fun v => v ≤ kAt key (swap d first (first + k)) (first + y)) hall (first + x)
        (by omega) (by omega)

theorem heapSortCmpFunc_sorted {α : Type} {cmp : α → α → Int} {key : α → Int}
    (hk : KeyOrder cmp key) (d : List α) (a b : Nat) (hab : a ≤ b) (hb : b ≤ d.length) :
    SortedOn key (heapSortCmpFunc cmp d a b) a b := by
  unfold heapSortCmpFunc
  have hheap := heapBuild_heap hk (b - a) a ((b - a - 1) / 2 + 1) d (by omega)
    (fun r c hr hc hch => by omega)
  have hsh := heapBuild_shuffle cmp (b - a) a ((b - a - 1) / 2 + 1) d
  have := heapPop_sorted hk a (b - a) (b - a) _ (Nat.le_refl _)
    (by rw [hsh.1]; omega) hheap (fun i j h1 h2 h3 => by omega)
    (fun x y h1 h2 h3 => by omega)
  rw [show a + (b - a) = b by omega] at this
  exact this

/-! ## The quicksort loop -/

theorem LowerBounded.shrink {α : Type} {key : α → Int} {d : List α} {a b b1 : Nat}
    (h : LowerBounded key d a b) (hb : b1 ≤ b) : LowerBounded key d a b1 :=
  fun ha k h1 h2 => h ha k h1 (by omega)

/-- A range partitioned at `mid` whose two sides are sorted is sorted. -/
theorem SortedOn.of_partition {α : Type} {key : α → Int} {d : List α} {a mid b : Nat}
    (hl : SortedOn key d a mid) (hr : SortedOn key d (mid + 1) b)
    (hlo : ∀ k, a ≤ k → k < mid → kAt key d k ≤ kAt key d mid)
    (hhi : ∀ k, mid < k → k < b → kAt key d mid ≤ kAt key d k) : SortedOn key d a b := by
  intro i j hi hij hj
  by_cases h1 : j < mid
  · exact hl i j hi hij h1
  · by_cases h2 : mid < i
    · exact hr i j (by omega) hij hj
    · by_cases h3 : i = mid
      · by_cases h4 : j = mid
        · rw [h3, h4]
        · rw [h3]; exact hhi j (by omega) hj
      · by_cases h4 : j = mid
        · rw [h4]; exact hlo i hi (by omega)
        · have := hlo i hi (by omega)
          have := hhi j (by omega) hj
          omega

/-- Sorting the two sides of a partitioned range, one after the other in
either order, sorts the range. -/
theorem sorted_after_partition {α : Type} {key : α → Int} {p r1 r2 : List α}
    {a mid b x1 y1 x2 y2 : Nat} (hmid : a ≤ mid ∧ mid < b)
    (hlo : ∀ k, a ≤ k → k < mid → kAt key p k < kAt key p mid)
    (hhi : ∀ k, mid < k → k < b → kAt key p mid ≤ kAt key p k)
    (h1 : Shuffle p r1 x1 y1) (s1 : SortedOn key r1 x1 y1)
    (h2 : Shuffle r1 r2 x2 y2) (s2 : SortedOn key r2 x2 y2)
    (hr : (a = x1 ∧ mid = y1 ∧ mid + 1 = x2 ∧ b = y2)
      ∨ (mid + 1 = x1 ∧ b = y1 ∧ a = x2 ∧ mid = y2)) :
    Shuffle p r2 a b ∧ SortedOn key r2 a b := by
  have hsh : Shuffle p r2 a b := by
    rcases hr with ⟨e1, e2, e3, e4⟩ | ⟨e1, e2, e3, e4⟩ <;> subst e1 e2 e3 e4
    · exact (h1.mono (Nat.le_refl _) (by omega)).trans (h2.mono (by omega) (Nat.le_refl _))
    · exact (h1.mono (by omega) (Nat.le_refl _)).trans (h2.mono (Nat.le_refl _) (by omega))
  refine ⟨hsh, ?_⟩
  rcases hr with ⟨e1, e2, e3, e4⟩ | ⟨e1, e2, e3, e4⟩ <;> subst e1 e2 e3 e4
  · have hm : kAt key r2 mid = kAt key p mid := by
      rw [h2.kAt_outside key mid (by omega), h1.kAt_outside key mid (by omega)]
    apply SortedOn.of_partition (s1.of_shuffle_outside h2 (Or.inl (by omega))) s2
    · intro k hk1 hk2
      rw [hm, h2.kAt_outside key k (by omega)]
      exact le_of_lt (h1.forall_range key (fun v => v < kAt key p mid) hlo k hk1 hk2)
    · intro k hk1 hk2
      rw [hm]
      apply h2.forall_range key (fun v => kAt key p mid ≤ v) _ k (by omega) hk2
      intro k1 hk3 hk4
      rw [h1.kAt_outside key k1 (by omega)]
      exact hhi k1 (by omega) hk4
  · have hm : kAt key r2 mid = kAt key p mid := by
      rw [h2.kAt_outside key mid (by omega), h1.kAt_outside key mid (by omega)]
    apply SortedOn.of_partition s2 (s1.of_shuffle_outside h2 (Or.inr (by omega)))
    · intro k hk1 hk2
      rw [hm]
      apply le_of_lt
      apply h2.forall_range key (fun v => v < kAt key p mid) _ k hk1 hk2
      intro k1 hk3 hk4
      rw [h1.kAt_outside key k1 (by omega)]
      exact hlo k1 hk3 hk4
    · intro k hk1 hk2
      rw [hm, h2.kAt_outside key k (by omega)]
      exact h1.forall_range key (fun v => kAt key p mid ≤ v)
        (fun k1 hk3 hk4 => hhi k1 (by omega) hk4) k (by omega) hk2

theorem pdqsortCmpFunc_spec_aux {α : Type} {cmp : α → α → Int} {key : α → Int}
    (hk : KeyOrder cmp key) (next : Nat → Nat) (fuel : Nat) :
    ∀ (d : List α) (a b limit : Nat) (wb wp : Bool),
      b - a < fuel → a ≤ b → b ≤ d.length → LowerBounded key d a b →
      Shuffle d (pdqsortCmpFunc cmp next fuel d a b limit wb wp) a b
      ∧ SortedOn key (pdqsortCmpFunc cmp next fuel d a b limit wb wp) a b := by
  induction fuel with
  | zero => intro d a b limit wb wp h; omega
  | succ fuel ih =>
    intro d a b limit wb wp hf hab hb hlb
    rw [pdqsortCmpFunc]
    split
    · exact ⟨insertionSortCmpFunc_shuffle cmp d a b, insertionSortCmpFunc_sorted hk d a b hb⟩
    · rename_i hlen
      split
      · exact ⟨heapSortCmpFunc_shuffle cmp d a b hab, heapSortCmpFunc_sorted hk d a b hab hb⟩
      · rename_i hlimit
        dsimp only
        have hd1 : Shuffle d (if wb = true then d else breakPatternsCmpFunc next d a b) a b := by
          split
          · exact Shuffle.refl _ _ _
          · exact breakPatternsCmpFunc_shuffle next d a b
        generalize (if wb = true then d else breakPatternsCmpFunc next d a b) = d1 at hd1 ⊢
        generalize (if wb = true then limit else limit - 1) = limit1
        have hph := choosePivotCmpFunc_mem cmp d1 a b (by omega)
        generalize choosePivotCmpFunc cmp d1 a b = ph at hph ⊢
        have hd2 : Shuffle d1 (if ph.2 = sortedHint.decreasingHint
            then reverseRangeCmpFunc d1 a b else d1) a b := by
          split
          · exact reverseRangeCmpFunc_shuffle d1 a b (by omega)
          · exact Shuffle.refl _ _ _
        generalize (if ph.2 = sortedHint.decreasingHint
            then reverseRangeCmpFunc d1 a b else d1) = d2 at hd2 ⊢
        have hpv : a ≤ (if ph.2 = sortedHint.decreasingHint then b - 1 - (ph.1 - a) else ph.1)
            ∧ (if ph.2 = sortedHint.decreasingHint then b - 1 - (ph.1 - a) else ph.1) < b := by
          split <;> omega
        generalize (if ph.2 = sortedHint.decreasingHint then b - 1 - (ph.1 - a) else ph.1)
          = pivot at hpv ⊢
        generalize (if ph.2 = sortedHint.decreasingHint then sortedHint.increasingHint
          else ph.2) = hint
        have hsd2 : Shuffle d d2 a b := hd1.trans hd2
        have hb2 : b ≤ d2.length := by rw [hsd2.1]; exact hb
        have hpis : Shuffle d2 (if wb = true ∧ wp = true ∧ hint = sortedHint.increasingHint
              then partialInsertionSortCmpFunc cmp d2 a b else (d2, false)).1 a b
            ∧ ((if wb = true ∧ wp = true ∧ hint = sortedHint.increasingHint
              then partialInsertionSortCmpFunc cmp d2 a b else (d2, false)).2 = true →
              SortedOn key (if wb = true ∧ wp = true ∧ hint = sortedHint.increasingHint
              then partialInsertionSortCmpFunc cmp d2 a b else (d2, false)).1 a b) := by
          split
          · exact partialInsertionSortCmpFunc_spec hk d2 a b (by omega) hb2 (hlb.of_shuffle hsd2)
          · exact ⟨Shuffle.refl _ _ _, fun h => by simp at h⟩
        generalize (if wb = true ∧ wp = true ∧ hint = sortedHint.increasingHint
              then partialInsertionSortCmpFunc cmp d2 a b else (d2, false)) = pis at hpis ⊢
        obtain ⟨hpis1, hpis2⟩ := hpis
        have hs3 : Shuffle d pis.1 a b := hsd2.trans hpis1
        have hb3 : b ≤ pis.1.length := by rw [hs3.1]; exact hb
        have hlb3 : LowerBounded key pis.1 a b := hlb.of_shuffle hs3
        split
        · rename_i hsorted
          exact ⟨hs3, hpis2 hsorted⟩
        · split
          · rename_i hcond
            have hpP : kAt key pis.1 pivot ≤ kAt key pis.1 (a - 1) :=
              (lessAt_false_iff hk pis.1 (a - 1) pivot (by omega) (by omega)).mp hcond.2
            have hmin : ∀ k, a ≤ k → k < b → kAt key pis.1 pivot ≤ kAt key pis.1 k :=
              fun k h1 h2 => le_trans hpP (hlb3 hcond.1 k h1 h2)
            obtain ⟨e1, e2, e3, e4, e5⟩ :=
              partitionEqualCmpFunc_spec hk pis.1 a b pivot hb3 hpv hmin
            generalize partitionEqualCmpFunc cmp pis.1 a b pivot = pe at e1 e2 e3 e4 e5 ⊢
            have hlbe : LowerBounded key pe.1 pe.2 b := by
              intro _ k h1 h2
              rw [e4 (pe.2 - 1) (by omega) (by omega)]
              exact le_of_lt (e5 k h1 h2)
            obtain ⟨r1, r2⟩ := ih pe.1 pe.2 b limit1 wb wp (by omega) e3
              (by rw [e1.1]; exact hb3) hlbe
            generalize pdqsortCmpFunc cmp next fuel pe.1 pe.2 b limit1 wb wp = R at r1 r2 ⊢
            refine ⟨hs3.trans (e1.trans (r1.mono (by omega) (Nat.le_refl b))), ?_⟩
            intro i j hi hij hj
            by_cases hj2 : j < pe.2
            · rw [r1.kAt_outside key i (by omega), r1.kAt_outside key j (by omega),
                e4 i hi (by omega), e4 j (by omega) hj2]
            · by_cases hi2 : i < pe.2
              · rw [r1.kAt_outside key i (by omega), e4 i hi hi2]
                exact le_of_lt (r1.forall_range key (fun v => kAt key pis.1 pivot < v) e5 j
                  (by omega) hj)
              · exact r2 i j (by omega) hij hj
          · obtain ⟨p1, p2, p3, p4, p5⟩ := partitionCmpFunc_spec hk pis.1 a b pivot hb3 hpv
            generalize partitionCmpFunc cmp pis.1 a b pivot = p at p1 p2 p3 p4 p5 ⊢
            have hbp : b ≤ p.1.length := by rw [p1.1]; exact hb3
            have hlbp : LowerBounded key p.1 a b := hlb3.of_shuffle p1
            split
            · obtain ⟨l1, l2⟩ := ih p.1 a p.2.1 limit1 true true (by omega) p2 (by omega)
                (hlbp.shrink (by omega))
              generalize pdqsortCmpFunc cmp next fuel p.1 a p.2.1 limit1 true true = R1
                at l1 l2 ⊢
              have hlb1 : LowerBounded key R1 (p.2.1 + 1) b := by
                intro _ k h1 h2
                rw [Nat.add_sub_cancel, l1.kAt_outside key p.2.1 (by omega),
                  l1.kAt_outside key k (by omega)]
                exact p5 k (by omega) h2
              obtain ⟨q1, q2⟩ := ih R1 (p.2.1 + 1) b limit1
                (decide ((b - a) / 8 ≤ p.2.1 - a)) p.2.2 (by omega) (by omega)
                (by rw [l1.1]; exact hbp) hlb1
              have := sorted_after_partition ⟨p2, p3⟩ p4 p5 l1 l2 q1 q2
                (Or.inl ⟨rfl, rfl, rfl, rfl⟩)
              exact ⟨hs3.trans (p1.trans this.1), this.2⟩
            · have hlb0 : LowerBounded key p.1 (p.2.1 + 1) b := by
                intro _ k h1 h2
                rw [Nat.add_sub_cancel]
                exact p5 k (by omega) h2
              obtain ⟨l1, l2⟩ := ih p.1 (p.2.1 + 1) b limit1 true true (by omega) (by omega)
                hbp hlb0
              generalize pdqsortCmpFunc cmp next fuel p.1 (p.2.1 + 1) b limit1 true true = R1
                at l1 l2 ⊢
              have hlb1 : LowerBounded key R1 a p.2.1 :=
                (hlbp.of_shuffle (l1.mono (by omega) (Nat.le_refl b))).shrink (by omega)
              obtain ⟨q1, q2⟩ := ih R1 a p.2.1 limit1
                (decide ((b - a) / 8 ≤ b - p.2.1)) p.2.2 (by omega) p2
                (by rw [l1.1]; omega) hlb1
              have := sorted_after_partition ⟨p2, p3⟩ p4 p5 l1 l2 q1 q2
                (Or.inr ⟨rfl, rfl, rfl, rfl⟩)
              exact ⟨hs3.trans (p1.trans this.1), this.2⟩

/-- The quicksort loop sorts its range and only rearranges it. -/
theorem pdqsortCmpFunc_spec {α : Type} {cmp : α → α → Int} {key : α → Int}
    (hk : KeyOrder cmp key) (next : Nat → Nat) (fuel : Nat) (d : List α) (a b limit : Nat)
    (wb wp : Bool) (hf : b - a < fuel) (hab : a ≤ b) (hb : b ≤ d.length)
    (hlb : LowerBounded key d a b) :
    Shuffle d (pdqsortCmpFunc cmp next fuel d a b limit wb wp) a b
    ∧ SortedOn key (pdqsortCmpFunc cmp next fuel d a b limit wb wp) a b :=
  pdqsortCmpFunc_spec_aux hk next fuel d a b limit wb wp hf hab hb hlb

/-- `slices.SortFunc` returns a permutation of its argument whose keys are in
non-decreasing order. -/
theorem SortFunc_spec {α : Type} {cmp : α → α → Int} {key : α → Int}
    (hk : KeyOrder cmp key) (x : List α) :
    (slices.SortFunc x cmp).Perm x
    ∧ SortedOn key (slices.SortFunc x cmp) 0 x.length := by
  unfold slices.SortFunc
  obtain ⟨h1, h2⟩ := pdqsortCmpFunc_spec hk xorshiftNext (x.length + 1) x 0 x.length
    (bitsLen x.length) true true (by omega) (Nat.zero_le _) (Nat.le_refl _)
    (fun h => by omega)
  exact ⟨h1.2.1, h2⟩

/-! ## Claims on the stream, the encoder and the scanner -/

/-- C3: the streaming loop runs over the whole Frame Sequence whatever the reads
answer: every frame is read once, in order; the skipped counter ends at the
number N of frames whose read fails; the pipe receives exactly the contents of
the readable frames, one write each, in sequence order (so M - N writes); and a
run of `TimelapseProfile` past the pipe opening carries exactly these skips and
writes. -/
theorem C3_stream_skips_exactly_the_unreadable
    (readFile : String → Except String Bytes) (frames : List Screenshot) :
    readAttempts (streamLoop readFile frames).trace = frames.map (fun s => s.Path)
    ∧ (streamLoop readFile frames).skipped = frames.countP (fun s => !readable readFile s)
    ∧ pipeWrites (streamLoop readFile frames).trace = frames.filterMap (content readFile)
    ∧ (pipeWrites (streamLoop readFile frames).trace).length
        + (streamLoop readFile frames).skipped = frames.length
    ∧ (∀ (env : Env) (profile : Profile) (totalSize : Int),
        (runEncoder env profile frames totalSize).skipped
            = frames.countP (fun s => !readable env.readFile s)
        ∧ pipeWrites (runEncoder env profile frames totalSize).trace
            = frames.filterMap (content env.readFile)) := by
  obtain ⟨h1, h2, h3, -, -, -⟩ := streamLoop_spec readFile frames
  refine ⟨h3, h1, h2, ?_, ?_⟩
  · rw [h1, h2, length_filterMap_content]
    have := List.length_eq_countP_add_countP (readable readFile) frames
    simp only [Bool.not_eq_true] at this
    rw [this]
    congr 1
    apply List.countP_congr
    intro s _
    cases readable readFile s <;> simp
  · intro env profile totalSize
    obtain ⟨e1, e2, -, -, -, -⟩ := streamLoop_spec env.readFile frames
    obtain ⟨head, tail, ht, hh, htail, -⟩ := runEncoder_trace env profile frames totalSize
    constructor
    · rw [← e1]
      unfold runEncoder
      cases env.waitErr <;> rfl
    · rw [ht, pipeWrites_append, pipeWrites_append, e2, hh]
      have hz : pipeWrites (Effect.pipeClose :: Effect.wait :: tail) = [] := by
        simp only [pipeWrites]
        clear ht
        induction tail with
        | nil => rfl
        | cons e tail ih =>
          obtain ⟨text, h | h⟩ := htail e (List.mem_cons_self _ _)
          · subst h
            simpa [pipeWrites] using ih (fun e he => htail e (List.mem_cons_of_mem _ he))
          · subst h
            simpa [pipeWrites] using ih (fun e he => htail e (List.mem_cons_of_mem _ he))
      rw [hz]
      simp [pipeWrites, framerateQuestion]

/-- A run whose scan completes and whose pipe opens is the run of `runEncoder`
on the sorted catalog. -/
theorem TimelapseProfile_eq_runEncoder (env : Env) (profile : Profile) (st : ScanState)
    (hscan : scan env.windows env.walk { screenshots := [], totalSize := 0 } = some st)
    (hpipe : env.stdinPipeErr = none) :
    TimelapseProfile env profile =
      runEncoder env profile (slices.SortFunc st.screenshots compareScreenshots) st.totalSize := by
  unfold TimelapseProfile
  rw [hscan]
  simp only [hpipe]

theorem runEncoder_fields (env : Env) (profile : Profile) (screenshots : List Screenshot)
    (totalSize : Int) :
    (runEncoder env profile screenshots totalSize).screenshots = screenshots
    ∧ (runEncoder env profile screenshots totalSize).totalSize = totalSize
    ∧ (runEncoder env profile screenshots totalSize).skipped
        = (streamLoop env.readFile screenshots).skipped := by
  unfold runEncoder
  cases env.waitErr <;> exact ⟨rfl, rfl, rfl⟩

/-- C4: in every run in which the pipe was opened, the trace is
`pre ++ [close, wait] ++ post` with the opening of the pipe in `pre`: the
single close of the pipe comes after every read attempt and every write (all
of them lie in `pre`, none in `post`) and right before the single wait,
whatever the reads answer; with no qualifying file the sequence is empty, the
total is zero, nothing is skipped or written, and the pipe is still closed
once. -/
theorem C4_pipe_closed_exactly_once (env : Env) (profile : Profile) (st : ScanState)
    (hscan : scan env.windows env.walk { screenshots := [], totalSize := 0 } = some st)
    (hpipe : env.stdinPipeErr = none) :
    ∃ pre post,
      (TimelapseProfile env profile).trace = pre ++ Effect.pipeClose :: Effect.wait :: post
      ∧ Effect.stdinPipe ∈ pre
      ∧ Effect.pipeClose ∉ pre ∧ Effect.pipeClose ∉ post
      ∧ Effect.wait ∉ pre ∧ Effect.wait ∉ post
      ∧ (∀ e ∈ post, e.isFrameIO = false)
      ∧ readAttempts pre = (TimelapseProfile env profile).screenshots.map (fun s => s.Path)
      ∧ pipeWrites pre
          = (TimelapseProfile env profile).screenshots.filterMap (content env.readFile)
      ∧ (TimelapseProfile env profile).trace.count Effect.pipeClose = 1
      ∧ (st.screenshots = [] →
          (TimelapseProfile env profile).screenshots = []
          ∧ (TimelapseProfile env profile).totalSize = 0
          ∧ (TimelapseProfile env profile).skipped = 0
          ∧ pipeWrites (TimelapseProfile env profile).trace = []
          ∧ (TimelapseProfile env profile).trace.count Effect.pipeClose = 1) := by
  rw [TimelapseProfile_eq_runEncoder env profile st hscan hpipe]
  obtain ⟨frames, hfr⟩ : ∃ frames, frames = slices.SortFunc st.screenshots compareScreenshots :=
    ⟨_, rfl⟩
  rw [← hfr]
  obtain ⟨f1, f2, f3⟩ := runEncoder_fields env profile frames st.totalSize
  obtain ⟨head, tail, ht, hh, htail, -⟩ := runEncoder_trace env profile frames st.totalSize
  obtain ⟨e1, e2, e3, -, e5, e6⟩ := streamLoop_spec env.readFile frames
  have hc1 : Effect.pipeClose ∉ head ++ (streamLoop env.readFile frames).trace := by
    rw [hh]; simp [e5, framerateQuestion]
  have hw1 : Effect.wait ∉ head ++ (streamLoop env.readFile frames).trace := by
    rw [hh]; simp [e6, framerateQuestion]
  have hc2 : Effect.pipeClose ∉ tail := by
    intro hin
    obtain ⟨text, h | h⟩ := htail _ hin <;> cases h
  have hw2 : Effect.wait ∉ tail := by
    intro hin
    obtain ⟨text, h | h⟩ := htail _ hin <;> cases h
  have hcount : (runEncoder env profile frames st.totalSize).trace.count Effect.pipeClose
      = 1 := by
    rw [ht, List.count_append, List.count_cons_self, List.count_cons_of_ne (by simp),
      List.count_eq_zero.mpr hc1, List.count_eq_zero.mpr hc2]
  have hwr : ∀ t : List Effect, (∀ e ∈ t, ∃ text, e = Effect.stderr text ∨ e = Effect.waitInput) →
      pipeWrites t = [] := by
    intro t
    induction t with
    | nil => intro _; rfl
    | cons e t ih =>
      intro h
      obtain ⟨text, h1 | h1⟩ := h e (List.mem_cons_self _ _)
      · subst h1
        simpa [pipeWrites] using ih (fun e he => h e (List.mem_cons_of_mem _ he))
      · subst h1
        simpa [pipeWrites] using ih (fun e he => h e (List.mem_cons_of_mem _ he))
  refine ⟨head ++ (streamLoop env.readFile frames).trace, tail, ht, by rw [hh]; simp,
    hc1, hc2, hw1, hw2, ?_, ?_, ?_, hcount, ?_⟩
  · intro e he
    obtain ⟨text, h | h⟩ := htail e he <;> subst h <;> rfl
  · rw [readAttempts_append, e3, f1, hh]
    simp [readAttempts, framerateQuestion]
  · rw [pipeWrites_append, e2, f1, hh]
    simp [pipeWrites, framerateQuestion]
  · intro hempty
    have hnil : frames = [] := by rw [hfr, hempty]; rfl
    have htot : st.totalSize = 0 := by
      have := (scan_grows env.windows env.walk _ st hscan).2
      simpa [hempty] using this
    refine ⟨by rw [f1, hnil], by rw [f2, htot], by rw [f3, e1, hnil]; rfl, ?_, hcount⟩
    rw [ht, pipeWrites_append, pipeWrites_append, e2, hh, hnil]
    simp only [pipeWrites, framerateQuestion, List.filterMap_nil, List.append_nil,
      List.nil_append]
    exact hwr tail htail

/-- Witness of C4 on the sample environment. -/
theorem C4_pipe_closed_exactly_once_witness :
    scan sampleEnv.windows sampleEnv.walk { screenshots := [], totalSize := 0 } = some sampleScan
    ∧ sampleEnv.stdinPipeErr = none
    ∧ ∃ pre post,
      (TimelapseProfile sampleEnv sampleProfile).trace
        = pre ++ Effect.pipeClose :: Effect.wait :: post
      ∧ Effect.stdinPipe ∈ pre
      ∧ Effect.pipeClose ∉ pre ∧ Effect.pipeClose ∉ post
      ∧ Effect.wait ∉ pre ∧ Effect.wait ∉ post
      ∧ (∀ e ∈ post, e.isFrameIO = false)
      ∧ readAttempts pre
          = (TimelapseProfile sampleEnv sampleProfile).screenshots.map (fun s => s.Path)
      ∧ pipeWrites pre
          = (TimelapseProfile sampleEnv sampleProfile).screenshots.filterMap
              (content sampleEnv.readFile)
      ∧ (TimelapseProfile sampleEnv sampleProfile).trace.count Effect.pipeClose = 1
      ∧ (sampleScan.screenshots = [] →
          (TimelapseProfile sampleEnv sampleProfile).screenshots = []
          ∧ (TimelapseProfile sampleEnv sampleProfile).totalSize = 0
          ∧ (TimelapseProfile sampleEnv sampleProfile).skipped = 0
          ∧ pipeWrites (TimelapseProfile sampleEnv sampleProfile).trace = []
          ∧ (TimelapseProfile sampleEnv sampleProfile).trace.count Effect.pipeClose = 1) :=
  ⟨by decide, rfl,
    C4_pipe_closed_exactly_once sampleEnv sampleProfile sampleScan (by decide) rfl⟩

/-- C5 (the code departs from the claim): the progress bar is created for all
frames but advanced only after a successful read. On the sample run three
frames are attempted, one read fails, and the bar advances by two; in general
it advances by the number of readable frames. -/
theorem C5_progress_skips_unreadable_frames :
    readAttempts (TimelapseProfile sampleEnv sampleProfile).trace
        = ["p1/b.png", "p1/a.png", "p1/c.png"]
    ∧ Effect.barNew 3 ∈ (TimelapseProfile sampleEnv sampleProfile).trace
    ∧ barAdvance (TimelapseProfile sampleEnv sampleProfile).trace = 2
    ∧ (∀ (readFile : String → Except String Bytes) (frames : List Screenshot),
        barAdvance (streamLoop readFile frames).trace = frames.countP (readable readFile)) := by
  refine ⟨by decide, by decide, by decide, ?_⟩
  intro readFile frames
  exact (streamLoop_spec readFile frames).2.2.2.1

/-- C6 (the code departs from the claim): the error of `cmd.Start` is dropped.
With an encoder that cannot be started the run does exit with status 1, but
through the failure of `cmd.Wait`, and the only diagnostic names the wait
error, not the cause returned by the start; no run depends on the start
error. -/
theorem C6_start_error_is_dropped :
    missingEncoderEnv.startErr = some "fork/exec /usr/bin/ffmpeg: permission denied"
    ∧ (TimelapseProfile missingEncoderEnv sampleProfile).outcome = Outcome.exited 1
    ∧ stderrTexts (TimelapseProfile missingEncoderEnv sampleProfile).trace
        = ["Found 0 screenshots. Total size: 0 B\n", "ffmpeg error: exec: not started\n\n"]
    ∧ (∀ (env : Env) (profile : Profile) (e : Option String),
        TimelapseProfile { env with startErr := e } profile = TimelapseProfile env profile) := by
  refine ⟨rfl, by decide, by decide, ?_⟩
  intro env profile e
  rfl

/-- C7: in a run that reaches the wait (the scan completes and the pipe opens),
an error of `cmd.Wait` makes the run exit with status 1 after writing a
diagnostic that contains the captured output verbatim; without such an error
the function returns normally, whatever the number of skipped frames. -/
theorem C7_encoder_failure_surfaces_output (env : Env) (profile : Profile) (st : ScanState)
    (hscan : scan env.windows env.walk { screenshots := [], totalSize := 0 } = some st)
    (hpipe : env.stdinPipeErr = none) :
    (∀ err, env.waitErr = some err →
      (TimelapseProfile env profile).outcome = Outcome.exited 1
      ∧ ∃ text, Effect.stderr text ∈ (TimelapseProfile env profile).trace
          ∧ containsText text env.output
          ∧ containsText text err)
    ∧ (env.waitErr = none → (TimelapseProfile env profile).outcome = Outcome.returned) := by
  rw [TimelapseProfile_eq_runEncoder env profile st hscan hpipe]
  constructor
  · intro err herr
    obtain ⟨head, tail, ht, -, -, htail⟩ := runEncoder_trace env profile
      (slices.SortFunc st.screenshots compareScreenshots) st.totalSize
    refine ⟨by simp [runEncoder, herr],
      "ffmpeg error: " ++ err ++ "\n" ++ env.output ++ "\n", ?_, ?_, ?_⟩
    · rw [ht, htail err herr]
      simp
    · unfold containsText
      simp only [String.data_append]
      exact List.infix_append _ _ _
    · unfold containsText
      simp only [String.data_append]
      exact ⟨"ffmpeg error: ".data, "\n".data ++ env.output.data ++ "\n".data, by simp⟩
  · intro hnone
    simp [runEncoder, hnone]

/-- Witness of C7 on the sample environment with a failing encoder. -/
theorem C7_encoder_failure_surfaces_output_witness :
    scan failingEncoderEnv.windows failingEncoderEnv.walk { screenshots := [], totalSize := 0 }
      = some sampleScan
    ∧ failingEncoderEnv.stdinPipeErr = none
    ∧ (∀ err, failingEncoderEnv.waitErr = some err →
      (TimelapseProfile failingEncoderEnv sampleProfile).outcome = Outcome.exited 1
      ∧ ∃ text, Effect.stderr text ∈ (TimelapseProfile failingEncoderEnv sampleProfile).trace
          ∧ containsText text failingEncoderEnv.output
          ∧ containsText text err)
    ∧ (failingEncoderEnv.waitErr = none →
        (TimelapseProfile failingEncoderEnv sampleProfile).outcome = Outcome.returned) :=
  ⟨by decide, rfl,
    C7_encoder_failure_surfaces_output failingEncoderEnv sampleProfile sampleScan
      (by decide) rfl⟩

/-- C8 (the code departs from the claim): the callback never reads its `err`
argument. On an entry delivered with an error, a `.png` path and no file info
it calls `IsDir` on the nil info: the callback panics and the run ends there,
with no further entry scanned. An entry whose extension is not `.png`, or whose
info is that of a directory, is skipped without a frame and with a nil return,
with or without an error. -/
theorem C8_error_entry_without_info_panics :
    walkFn false { screenshots := [], totalSize := 0 }
        { path := "p1/a.png", info := none, err := some "lstat p1/a.png: permission denied" }
      = none
    ∧ scan unreadableEntryEnv.windows unreadableEntryEnv.walk
        { screenshots := [], totalSize := 0 } = none
    ∧ (TimelapseProfile unreadableEntryEnv sampleProfile).outcome = Outcome.panicked
    ∧ (∀ (windows : Bool) (st : ScanState) (path : String) (err : Option String),
        filepath.Ext windows path = ".png" →
          walkFn windows st { path := path, info := none, err := err } = none)
    ∧ (∀ (windows : Bool) (st : ScanState) (e : WalkEntry),
        (filepath.Ext windows e.path ≠ ".png"
          ∨ ∃ info : FileInfo, e.info = some info ∧ info.IsDir = true) →
          walkFn windows st e = some (st, none)) := by
  refine ⟨by decide, by decide, by decide, ?_, ?_⟩
  · intro windows st path err h
    simp [walkFn, h]
  · intro windows st e h
    unfold walkFn
    by_cases hext : filepath.Ext windows e.path = ".png"
    · rcases h with h | ⟨info, hinfo, hdir⟩
      · exact absurd hext h
      · simp [hext, hinfo, hdir]
    · simp [hext]

/-! ## Claims on the sorter, the catalog and the encoder arguments -/

theorem compareScreenshots_keyOrder : KeyOrder compareScreenshots (fun s => s.Time) := by
  intro x y
  unfold compareScreenshots Time.Compare
  split
  · simp [*]
  · split <;> simp [*]

theorem SortedOn.getElem?_le {α : Type} {key : α → Int} {d : List α} {n : Nat}
    (h : SortedOn key d 0 n) (i j : Nat) (x y : α) (hij : i ≤ j) (hj : j < n)
    (hx : d[i]? = some x) (hy : d[j]? = some y) : key x ≤ key y := by
  have := h i j (Nat.zero_le _) hij hj
  unfold kAt at this
  rw [hx, hy] at this
  exact this

theorem SortFunc_of_short {α : Type} (cmp : α → α → Int) (x : List α) (h : x.length ≤ 12) :
    slices.SortFunc x cmp = insertionSortCmpFunc cmp x 0 x.length := by
  unfold slices.SortFunc
  rw [pdqsortCmpFunc, if_pos (by omega)]

theorem sort_three (p1 p2 p3 : String) (T1 T2 T3 : Int) (h12 : T1 < T2) (h23 : T2 < T3) :
    slices.SortFunc [{ Path := p1, Time := T2 }, { Path := p2, Time := T1 },
        { Path := p3, Time := T3 }] compareScreenshots
      = [{ Path := p2, Time := T1 }, { Path := p1, Time := T2 }, { Path := p3, Time := T3 }] := by
  rw [SortFunc_of_short _ _ (by simp)]
  have c1 : ¬ T2 < T1 := by omega
  have c2 : ¬ T3 < T2 := by omega
  have c3 : ¬ T3 < T1 := by omega
  simp [insertionSortCmpFunc, List.range', insertionSortInner, lessAt, swap,
    compareScreenshots, Time.Compare, h12, h23, c1, c2, c3]

/-- C1: the sequence `TimelapseProfile` streams is `slices.SortFunc` of the
discovered list under `Time.Compare`; it is a permutation of the discovered
list, of the same length, and the capture time at each position is not after
the one at the next position. Frames discovered with times T2, T1, T3
(T1 < T2 < T3) come out as T1, T2, T3, and the empty list stays empty. -/
theorem C1_sort_is_sorted_permutation (frames : List Screenshot) :
    (slices.SortFunc frames compareScreenshots).Perm frames
    ∧ (slices.SortFunc frames compareScreenshots).length = frames.length
    ∧ (∀ (i : Nat) (x y : Screenshot),
        (slices.SortFunc frames compareScreenshots)[i]? = some x →
        (slices.SortFunc frames compareScreenshots)[i + 1]? = some y → x.Time ≤ y.Time)
    ∧ (∀ (p1 p2 p3 : String) (T1 T2 T3 : Int), T1 < T2 → T2 < T3 →
        slices.SortFunc [{ Path := p1, Time := T2 }, { Path := p2, Time := T1 },
            { Path := p3, Time := T3 }] compareScreenshots
          = [{ Path := p2, Time := T1 }, { Path := p1, Time := T2 },
             { Path := p3, Time := T3 }])
    ∧ slices.SortFunc ([] : List Screenshot) compareScreenshots = []
    ∧ (∀ (env : Env) (profile : Profile) (st : ScanState),
        scan env.windows env.walk { screenshots := [], totalSize := 0 } = some st →
        (TimelapseProfile env profile).screenshots
          = slices.SortFunc st.screenshots compareScreenshots) := by
  obtain ⟨hperm, hsorted⟩ := SortFunc_spec compareScreenshots_keyOrder frames
  refine ⟨hperm, hperm.length_eq, ?_, sort_three, rfl, ?_⟩
  · intro i x y hx hy
    have hlt : i + 1 < (slices.SortFunc frames compareScreenshots).length := by
      by_contra hcon
      rw [List.getElem?_eq_none (by omega)] at hy
      cases hy
    rw [hperm.length_eq] at hlt
    exact hsorted.getElem?_le i (i + 1) x y (Nat.le_succ i) hlt hx hy
  · intro env profile st hscan
    unfold TimelapseProfile
    rw [hscan]
    cases hp : env.stdinPipeErr with
    | some err => rfl
    | none => exact (runEncoder_fields env profile _ _).1

/-- C2 as amended: for a discovered list of at most twelve frames
`slices.SortFunc` is an insertion sort and is stable: the frames of any one
capture time appear in the sorted sequence in their discovery order, so a
frame discovered before another of the same time stays before it. -/
theorem C2_sort_stable_up_to_twelve (frames : List Screenshot) (h : frames.length ≤ 12) :
    (∀ t : Time, framesAt t (slices.SortFunc frames compareScreenshots) = framesAt t frames)
    ∧ (∀ (a b : Screenshot) (l1 l2 l3 : List Screenshot),
        frames = l1 ++ a :: l2 ++ b :: l3 → a.Time = b.Time →
        ∃ r1 r2 r3, slices.SortFunc frames compareScreenshots = r1 ++ a :: r2 ++ b :: r3) := by
  have hst : ∀ t : Time,
      framesAt t (slices.SortFunc frames compareScreenshots) = framesAt t frames := by
    intro t
    rw [SortFunc_of_short _ _ h]
    exact insertionSortCmpFunc_stable compareScreenshots_keyOrder t frames 0 frames.length
      (Nat.le_refl _)
  refine ⟨hst, ?_⟩
  intro a b l1 l2 l3 hfr hab
  have h1 := hst a.Time
  generalize slices.SortFunc frames compareScreenshots = r at h1 ⊢
  rw [hfr] at h1
  unfold framesAt at h1
  simp only [List.filter_append, List.filter_cons, hab, decide_True, if_true,
    List.append_assoc] at h1
  rw [List.filter_eq_append_iff] at h1
  obtain ⟨r1, rest, e1, -, h2⟩ := h1
  rw [← hab] at h2
  rw [List.cons_append, List.filter_eq_cons_iff] at h2
  obtain ⟨r2, rest2, e2, -, -, h3⟩ := h2
  rw [List.filter_eq_append_iff] at h3
  obtain ⟨r3, rest3, e3, -, h4⟩ := h3
  rw [List.filter_eq_cons_iff] at h4
  obtain ⟨r4, rest4, e4, -, -, -⟩ := h4
  refine ⟨r1 ++ r2, r3 ++ r4, rest4, ?_⟩
  rw [e1, e2, e3, e4]
  simp

/-- Witness of C2 (amended) on twelve frames with ties. -/
theorem C2_sort_stable_up_to_twelve_witness :
    tiedInput.length ≤ 12
    ∧ (∀ t : Time,
        framesAt t (slices.SortFunc tiedInput compareScreenshots) = framesAt t tiedInput)
    ∧ (∀ (a b : Screenshot) (l1 l2 l3 : List Screenshot),
        tiedInput = l1 ++ a :: l2 ++ b :: l3 → a.Time = b.Time →
        ∃ r1 r2 r3, slices.SortFunc tiedInput compareScreenshots = r1 ++ a :: r2 ++ b :: r3) :=
  ⟨by decide, C2_sort_stable_up_to_twelve tiedInput (by decide)⟩

/-- C2 as stated fails: on thirteen frames the sort exchanges the first frame
with the pivot at index 3; both carry capture time 1, and the frame discovered
first (`f00.png`) ends after the one discovered fourth (`f03.png`). -/
theorem C2_unstable_counterexample :
    slices.SortFunc unstableInput compareScreenshots
      = [{ Path := "f06.png", Time := 0 }, { Path := "f03.png", Time := 1 },
         { Path := "f02.png", Time := 1 }, { Path := "f00.png", Time := 1 },
         { Path := "f04.png", Time := 1 }, { Path := "f05.png", Time := 1 },
         { Path := "f01.png", Time := 1 }, { Path := "f07.png", Time := 1 },
         { Path := "f08.png", Time := 1 }, { Path := "f09.png", Time := 1 },
         { Path := "f10.png", Time := 1 }, { Path := "f11.png", Time := 1 },
         { Path := "f12.png", Time := 1 }]
    ∧ unstableInput[0]? = some { Path := "f00.png", Time := 1 }
    ∧ unstableInput[3]? = some { Path := "f03.png", Time := 1 }
    ∧ (slices.SortFunc unstableInput compareScreenshots)[1]?
        = some { Path := "f03.png", Time := 1 }
    ∧ (slices.SortFunc unstableInput compareScreenshots)[3]?
        = some { Path := "f00.png", Time := 1 }
    ∧ framesAt 1 (slices.SortFunc unstableInput compareScreenshots)
        ≠ framesAt 1 unstableInput := by
  decide

/-- C9 as stated fails on the total: two qualifying entries of 2^62 bytes each
sum to 2^63, which the `int64` accumulator `totalSize` holds as -2^63. -/
theorem C9_total_size_overflow_counterexample :
    scan false (hugeEntries.map delivered) { screenshots := [], totalSize := 0 }
      = some { screenshots := [{ Path := "p1/a.png", Time := 1 },
                               { Path := "p1/b.png", Time := 2 }],
               totalSize := -9223372036854775808 }
    ∧ ((hugeEntries.filter (qualifies false)).map (fun e => e.2.Size)).sum
      = 9223372036854775808 := by
  decide

/-- C9 as amended: for entries delivered without error the scan completes and
the catalog is exactly the sub-list, in walk order, of the entries that are not
directories and whose path ends in the case-sensitive suffix `.png`, each with
its own path and modification time; its length is the number of such entries;
the total is the sum of their sizes wrapped to 64 bits, hence the sum itself
whenever that sum fits in an `int64`; and that count and total are what the run
reports before streaming. -/
theorem C9_catalog_of_qualifying_entries (windows : Bool) (entries : List (String × FileInfo)) :
    ∃ st : ScanState,
      scan windows (entries.map delivered) { screenshots := [], totalSize := 0 } = some st
      ∧ st.screenshots = (entries.filter (qualifies windows)).map
          (fun e => { Path := e.1, Time := e.2.ModTime })
      ∧ st.screenshots.length = entries.countP (qualifies windows)
      ∧ (∀ e : String × FileInfo,
          qualifies windows e = true ↔ (e.2.IsDir = false ∧ ".png".data <:+ e.1.data))
      ∧ filepath.Ext windows "p1/shot.PNG" ≠ ".png"
      ∧ filepath.Ext windows "p1/shot.jpg" ≠ ".png"
      ∧ filepath.Ext windows "p1/shot" ≠ ".png"
      ∧ st.totalSize
          = wrapInt64 ((entries.filter (qualifies windows)).map (fun e => e.2.Size)).sum
      ∧ (-2 ^ 63 ≤ ((entries.filter (qualifies windows)).map (fun e => e.2.Size)).sum
          ∧ ((entries.filter (qualifies windows)).map (fun e => e.2.Size)).sum < 2 ^ 63 →
          st.totalSize = ((entries.filter (qualifies windows)).map (fun e => e.2.Size)).sum)
      ∧ (∀ (env : Env) (profile : Profile), env.windows = windows →
          env.walk = entries.map delivered → env.stdinPipeErr = none →
          (TimelapseProfile env profile).totalSize = st.totalSize
          ∧ (stderrTexts (TimelapseProfile env profile).trace).head?
            = some ("Found " ++ toString (entries.countP (qualifies windows))
                ++ " screenshots. Total size: " ++ env.ByteCountIEC st.totalSize ++ "\n")) := by
  have hscan := scan_delivered windows entries { screenshots := [], totalSize := 0 } 0
    (by unfold wrapInt64; norm_num)
  simp only [List.nil_append, zero_add] at hscan
  obtain ⟨st, hst⟩ : ∃ st : ScanState, st =
      { screenshots := (entries.filter (qualifies windows)).map
          (fun e => { Path := e.1, Time := e.2.ModTime }),
        totalSize := wrapInt64
          ((entries.filter (qualifies windows)).map (fun e => e.2.Size)).sum } := ⟨_, rfl⟩
  rw [← hst] at hscan
  have hshots : st.screenshots = (entries.filter (qualifies windows)).map
      (fun e => { Path := e.1, Time := e.2.ModTime }) := by rw [hst]
  have htotal : st.totalSize = wrapInt64
      ((entries.filter (qualifies windows)).map (fun e => e.2.Size)).sum := by rw [hst]
  have hlen : st.screenshots.length = entries.countP (qualifies windows) := by
    rw [hshots]; simp [List.countP_eq_length_filter]
  refine ⟨st, hscan, hshots, hlen, ?_, ?_, ?_, ?_, htotal, ?_, ?_⟩
  · intro e
    unfold qualifies
    rw [Bool.and_eq_true, decide_eq_true_eq, ext_eq_png_iff]
    cases e.2.IsDir <;> simp
  · cases windows <;> decide
  · cases windows <;> decide
  · cases windows <;> decide
  · intro hr
    rw [htotal]
    exact wrapInt64_of_range _ hr.1 hr.2
  · intro env profile hw hwalk hpipe
    have hscan1 : scan env.windows env.walk { screenshots := [], totalSize := 0 } = some st := by
      rw [hw, hwalk]; exact hscan
    rw [TimelapseProfile_eq_runEncoder env profile st hscan1 hpipe]
    obtain ⟨head, tail, ht, hh, -, -⟩ := runEncoder_trace env profile
      (slices.SortFunc st.screenshots compareScreenshots) st.totalSize
    refine ⟨(runEncoder_fields env profile _ _).2.1, ?_⟩
    rw [ht, hh, (SortFunc_spec compareScreenshots_keyOrder _).1.length_eq, hlen]
    rfl

theorem startCalls_append (t u : List Effect) :
    startCalls (t ++ u) = startCalls t ++ startCalls u := by
  induction t with
  | nil => rfl
  | cons e t ih => cases e <;> simp [startCalls, ih]

theorem startCalls_streamLoop (readFile : String → Except String Bytes)
    (frames : List Screenshot) : startCalls (streamLoop readFile frames).trace = [] := by
  have gen : ∀ st : StreamState, startCalls (frames.foldl (streamStep readFile) st).trace
      = startCalls st.trace := by
    induction frames with
    | nil => intro st; rfl
    | cons s frames ih =>
      intro st
      rw [List.foldl_cons, ih, streamStep_trace, startCalls_append]
      cases h : readFile s.Path <;> simp [streamStep, h, startCalls]
  exact gen { skipped := 0, trace := [] }

/-- C10: the encoder argument list is a function of the profile name and the
frame-rate text alone: the fixed template with the frame rate (`5` when the
text is empty) after `-framerate` and the profile name followed by `.mp4` as
the output file; and this is the list the run starts the encoder with. -/
theorem C10_encoder_arguments (n f : String) :
    ffmpegArgs n (framerateOrDefault f)
      = ["ffmpeg", "-f", "image2pipe", "-framerate", (if f = "" then "5" else f), "-i", "-",
         "-s:v", "1920x1080", "-c:v", "libx264", "-vf", "format=yuv422p", "-r", "60",
         "-movflags", "+faststart", "-y", n ++ ".mp4"]
    ∧ (∀ (env : Env) (profile : Profile) (st : ScanState),
        scan env.windows env.walk { screenshots := [], totalSize := 0 } = some st →
        env.stdinPipeErr = none → env.framerate = f → profile.Name = n →
        startCalls (TimelapseProfile env profile).trace
          = [["ffmpeg", "-f", "image2pipe", "-framerate", (if f = "" then "5" else f),
              "-i", "-", "-s:v", "1920x1080", "-c:v", "libx264", "-vf", "format=yuv422p",
              "-r", "60", "-movflags", "+faststart", "-y", n ++ ".mp4"]]) := by
  refine ⟨rfl, ?_⟩
  intro env profile st hscan hpipe hf hn
  rw [TimelapseProfile_eq_runEncoder env profile st hscan hpipe]
  obtain ⟨head, tail, ht, hh, htail, -⟩ := runEncoder_trace env profile
    (slices.SortFunc st.screenshots compareScreenshots) st.totalSize
  have htl : ∀ t : List Effect,
      (∀ e ∈ t, ∃ text, e = Effect.stderr text ∨ e = Effect.waitInput) → startCalls t = [] := by
    intro t
    induction t with
    | nil => intro _; rfl
    | cons e t ih =>
      intro h
      obtain ⟨text, h1 | h1⟩ := h e (List.mem_cons_self _ _)
      · subst h1
        simpa [startCalls] using ih (fun e he => h e (List.mem_cons_of_mem _ he))
      · subst h1
        simpa [startCalls] using ih (fun e he => h e (List.mem_cons_of_mem _ he))
  rw [ht, startCalls_append, startCalls_append, startCalls_streamLoop, hh, hf, hn]
  simp only [startCalls, framerateQuestion, htl tail htail]
  rfl

/-- Witness of C1: the scenario of three frames discovered with times 2, 1, 3. -/
theorem C1_sort_is_sorted_permutation_witness :
    (1 : Int) < 2 ∧ (2 : Int) < 3
    ∧ slices.SortFunc [{ Path := "p1/a.png", Time := 2 }, { Path := "p1/b.png", Time := 1 },
          { Path := "p1/c.png", Time := 3 }] compareScreenshots
        = [{ Path := "p1/b.png", Time := 1 }, { Path := "p1/a.png", Time := 2 },
           { Path := "p1/c.png", Time := 3 }] :=
  ⟨by decide, by decide,
    (C1_sort_is_sorted_permutation []).2.2.2.1 "p1/a.png" "p1/b.png" "p1/c.png" 1 2 3
      (by decide) (by decide)⟩

/-- Witness of C9 (amended) on the sample walk: three of the six entries
qualify and their sizes sum to 60. -/
theorem C9_catalog_of_qualifying_entries_witness :
    sampleEntries.countP (qualifies false) = 3
    ∧ ((sampleEntries.filter (qualifies false)).map (fun e => e.2.Size)).sum = 60
    ∧ ∃ st : ScanState,
      scan false (sampleEntries.map delivered) { screenshots := [], totalSize := 0 } = some st
      ∧ st.screenshots = sampleScan.screenshots
      ∧ st.totalSize = 60 := by
  obtain ⟨st, h1, h2, -, -, -, -, -, -, h3, -⟩ :=
    C9_catalog_of_qualifying_entries false sampleEntries
  refine ⟨by decide, by decide, st, h1, ?_, ?_⟩
  · rw [h2]; decide
  · rw [h3 ⟨by decide, by decide⟩]; decide

/-- Witness of C10 on the sample run: an empty answer gives frame rate `5` and
the profile `p1` gives the output file `p1.mp4`. -/
theorem C10_encoder_arguments_witness :
    scan sampleEnv.windows sampleEnv.walk { screenshots := [], totalSize := 0 } = some sampleScan
    ∧ sampleEnv.stdinPipeErr = none ∧ sampleEnv.framerate = "" ∧ sampleProfile.Name = "p1"
    ∧ startCalls (TimelapseProfile sampleEnv sampleProfile).trace
        = [["ffmpeg", "-f", "image2pipe", "-framerate", "5", "-i", "-", "-s:v", "1920x1080",
            "-c:v", "libx264", "-vf", "format=yuv422p", "-r", "60", "-movflags", "+faststart",
            "-y", "p1.mp4"]] :=
  ⟨by decide, rfl, rfl, rfl,
    (C10_encoder_arguments "p1" "").2 sampleEnv sampleProfile sampleScan (by decide) rfl rfl rfl⟩

/-! ## Further properties of the run -/

/-- When the pipe cannot be opened the run exits with status 1 after a single
diagnostic that carries the error; the encoder is never started, no frame is
read or written, and there is no pipe to close and no wait. -/
theorem pipe_failure_is_fatal (env : Env) (profile : Profile) (st : ScanState) (err : String)
    (hscan : scan env.windows env.walk { screenshots := [], totalSize := 0 } = some st)
    (hpipe : env.stdinPipeErr = some err) :
    (TimelapseProfile env profile).outcome = Outcome.exited 1
    ∧ stderrTexts (TimelapseProfile env profile).trace
        = ["failed to open ffmpeg pipe: " ++ err ++ "\n"]
    ∧ startCalls (TimelapseProfile env profile).trace = []
    ∧ readAttempts (TimelapseProfile env profile).trace = []
    ∧ pipeWrites (TimelapseProfile env profile).trace = []
    ∧ Effect.pipeClose ∉ (TimelapseProfile env profile).trace
    ∧ Effect.wait ∉ (TimelapseProfile env profile).trace := by
  unfold TimelapseProfile
  rw [hscan]
  simp only [hpipe]
  simp [stderrTexts, startCalls, readAttempts, pipeWrites, framerateQuestion]

/-- Witness of `pipe_failure_is_fatal` on the sample walk. -/
theorem pipe_failure_is_fatal_witness :
    scan brokenPipeEnv.windows brokenPipeEnv.walk { screenshots := [], totalSize := 0 }
      = some sampleScan
    ∧ brokenPipeEnv.stdinPipeErr = some "too many open files"
    ∧ (TimelapseProfile brokenPipeEnv sampleProfile).outcome = Outcome.exited 1
    ∧ stderrTexts (TimelapseProfile brokenPipeEnv sampleProfile).trace
        = ["failed to open ffmpeg pipe: " ++ "too many open files" ++ "\n"]
    ∧ startCalls (TimelapseProfile brokenPipeEnv sampleProfile).trace = []
    ∧ readAttempts (TimelapseProfile brokenPipeEnv sampleProfile).trace = []
    ∧ pipeWrites (TimelapseProfile brokenPipeEnv sampleProfile).trace = []
    ∧ Effect.pipeClose ∉ (TimelapseProfile brokenPipeEnv sampleProfile).trace
    ∧ Effect.wait ∉ (TimelapseProfile brokenPipeEnv sampleProfile).trace :=
  ⟨by decide, rfl,
    pipe_failure_is_fatal brokenPipeEnv sampleProfile sampleScan "too many open files"
      (by decide) rfl⟩

/-- The streaming loop writes one diagnostic per frame whose read fails, in
sequence order, carrying the path and the error text, and nothing else to
standard error. -/
theorem stream_reports_each_failed_read (readFile : String → Except String Bytes)
    (frames : List Screenshot) :
    stderrTexts (streamLoop readFile frames).trace = frames.filterMap (readFailure readFile) := by
  have gen : ∀ st : StreamState,
      stderrTexts (frames.foldl (streamStep readFile) st).trace
        = stderrTexts st.trace ++ frames.filterMap (readFailure readFile) := by
    induction frames with
    | nil => intro st; simp
    | cons s frames ih =>
      intro st
      rw [List.foldl_cons, ih, streamStep_trace, stderrTexts_append, List.filterMap_cons]
      cases h : readFile s.Path <;> simp [streamStep, readFailure, h, stderrTexts]
  simpa [streamLoop, stderrTexts] using gen { skipped := 0, trace := [] }

/-- After a successful wait the run reports the number of skipped frames
exactly when it is positive, then the elapsed time, and returns. -/
theorem skip_report_only_when_skipped (env : Env) (profile : Profile) (st : ScanState)
    (hscan : scan env.windows env.walk { screenshots := [], totalSize := 0 } = some st)
    (hpipe : env.stdinPipeErr = none) (hwait : env.waitErr = none) :
    ∃ pre,
      (TimelapseProfile env profile).trace
        = pre ++ Effect.pipeClose :: Effect.wait ::
            ((if 0 < (TimelapseProfile env profile).skipped then
                [Effect.stderr ("Skipped " ++ toString (TimelapseProfile env profile).skipped
                  ++ " screenshots. See output for info\n")]
              else [])
             ++ [Effect.stderr ("Finished in " ++ env.elapsed ++ "\n"), Effect.waitInput])
      ∧ (TimelapseProfile env profile).outcome = Outcome.returned := by
  rw [TimelapseProfile_eq_runEncoder env profile st hscan hpipe]
  unfold runEncoder
  simp only [hwait]
  refine ⟨[framerateQuestion, Effect.stdinPipe,
      Effect.stderr ("Found "
        ++ toString (slices.SortFunc st.screenshots compareScreenshots).length
        ++ " screenshots. Total size: " ++ env.ByteCountIEC st.totalSize ++ "\n"),
      Effect.start (ffmpegArgs profile.Name (framerateOrDefault env.framerate)),
      Effect.barNew (slices.SortFunc st.screenshots compareScreenshots).length]
    ++ (streamLoop env.readFile (slices.SortFunc st.screenshots compareScreenshots)).trace,
    ?_, trivial⟩
  simp only [List.append_assoc, List.cons_append, List.nil_append]

/-- Witness of `skip_report_only_when_skipped` on the sample run, which skips
one frame. -/
theorem skip_report_only_when_skipped_witness :
    scan sampleEnv.windows sampleEnv.walk { screenshots := [], totalSize := 0 } = some sampleScan
    ∧ sampleEnv.stdinPipeErr = none ∧ sampleEnv.waitErr = none
    ∧ (TimelapseProfile sampleEnv sampleProfile).skipped = 1
    ∧ ∃ pre,
      (TimelapseProfile sampleEnv sampleProfile).trace
        = pre ++ Effect.pipeClose :: Effect.wait ::
            ((if 0 < (TimelapseProfile sampleEnv sampleProfile).skipped then
                [Effect.stderr ("Skipped "
                  ++ toString (TimelapseProfile sampleEnv sampleProfile).skipped
                  ++ " screenshots. See output for info\n")]
              else [])
             ++ [Effect.stderr ("Finished in " ++ sampleEnv.elapsed ++ "\n"), Effect.waitInput])
      ∧ (TimelapseProfile sampleEnv sampleProfile).outcome = Outcome.returned :=
  ⟨by decide, rfl, rfl, by decide,
    skip_report_only_when_skipped sampleEnv sampleProfile sampleScan (by decide) rfl rfl⟩

/-- The scanner callback does not depend on the traversal error it is handed. -/
theorem walkFn_ignores_err (windows : Bool) (st : ScanState) (e : WalkEntry)
    (err : Option String) :
    walkFn windows st { e with err := err } = walkFn windows st e := rfl

end Timelapse
